import Mathlib

/-!
Verification development for the gentzen propositional proof engine.

The definitions below are a shallow embedding of the reference JavaScript
sources: `utilities/formulaAST.js`, `utilities/formulaLexer.js`,
`utilities/formulaParser.js`, `utilities/formulaUtils.js` and `gentzen.js`.
Mutable class state is modelled by explicit state passing, JavaScript
exceptions by `Except`, and the two unbounded loops (the lexer scan and the
recursive-descent parser) by an explicit fuel parameter so that every
definition is executable and kernel-reducible.  Token positions are carried
by the lexer exactly as in the source; the parser reads only a token's type
and value (the source uses positions only inside error message text), so it
consumes position-erased tokens.
-/

set_option maxRecDepth 10000

instance {ε α : Type} [DecidableEq ε] [DecidableEq α] : DecidableEq (Except ε α) := fun a b =>
  match a, b with
  | .error e1, .error e2 =>
    if h : e1 = e2 then .isTrue (by rw [h]) else .isFalse (by intro hc; cases hc; exact h rfl)
  | .ok v1, .ok v2 =>
    if h : v1 = v2 then .isTrue (by rw [h]) else .isFalse (by intro hc; cases hc; exact h rfl)
  | .error _, .ok _ => .isFalse (by intro hc; cases hc)
  | .ok _, .error _ => .isFalse (by intro hc; cases hc)

namespace Gentzen

/-- Prefix test on character lists, recursing on the pattern first so that
an empty pattern reduces without inspecting the input (equal to
`List.isPrefixOf`, proved below). -/
def isPrefixOfChars : List Char → List Char → Bool
  | [], _ => true
  | _ :: _, [] => false
  | a :: as, b :: bs => a == b && isPrefixOfChars as bs

/-- JS `String.prototype.startsWith`, on the character lists (equal to
`String.startsWith`, but kernel-reducible). -/
def strStartsWith (s pre : String) : Bool := isPrefixOfChars pre.data s.data

/-- JS `String.prototype.slice(n)` for a nonnegative index (equal to
`String.drop`, but kernel-reducible). -/
def strDrop (s : String) (n : Nat) : String := String.mk (s.data.drop n)

/-! ## Formula AST (`utilities/formulaAST.js`) -/

/-- The five canonical operator tags. -/
inductive Operator where
  | not | and | or | implies | iff
deriving DecidableEq, Repr

/-- AST nodes: atoms, unary nodes and binary nodes, as in `formulaAST.js`. -/
inductive AST where
  | atom (name : String)
  | unary (operator : Operator) (operand : AST)
  | binary (operator : Operator) (left : AST) (right : AST)
deriving DecidableEq, Repr

instance : Inhabited AST := ⟨.atom ""⟩

/-- Rendering symbol of a binary operator (`opSymbols` in `BinaryNode.toString`,
with the source fallback to the raw operator tag for `not`). -/
def opSymbol : Operator → String
  | .and => "∧"
  | .or => "∨"
  | .implies => "→"
  | .iff => "↔"
  | .not => "not"

/-- Canonical string rendering (`astToString` / the node `toString` methods). -/
def astToString : AST → String
  | .atom n => n
  | .unary _ x => "~" ++ astToString x
  | .binary op l r =>
      "(" ++ astToString l ++ " " ++ opSymbol op ++ " " ++ astToString r ++ ")"

/-- Accumulator for `getAtoms`: a JavaScript `Set` preserves insertion order,
so deduplication keeps the first occurrence. -/
def getAtomsAux : AST → List String → List String
  | .atom n, acc => if n ∈ acc then acc else acc ++ [n]
  | .unary _ x, acc => getAtomsAux x acc
  | .binary _ l r, acc => getAtomsAux r (getAtomsAux l acc)

/-- All atomic proposition names of an AST (`getAtoms`). -/
def getAtoms (a : AST) : List String := getAtomsAux a []

/-- Structural AST equality (`astEquals`). -/
def astEquals : AST → AST → Bool
  | .atom n1, .atom n2 => decide (n1 = n2)
  | .unary op1 x1, .unary op2 x2 => decide (op1 = op2) && astEquals x1 x2
  | .binary op1 l1 r1, .binary op2 l2 r2 =>
      decide (op1 = op2) && astEquals l1 l2 && astEquals r1 r2
  | _, _ => false

/-- `normalizeAST`: recursively collapse a double negation into the
normalization of its operand; the only applied simplification. -/
def normalizeAST : AST → AST
  | .atom n => .atom n
  | .unary .not (.unary .not y) => normalizeAST y
  | .unary op x => .unary op (normalizeAST x)
  | .binary op l r => .binary op (normalizeAST l) (normalizeAST r)

/-- `isImplication`. -/
def isImplication : AST → Bool
  | .binary .implies _ _ => true
  | _ => false

/-- Result of `getImplicationParts`. -/
structure ImplicationParts where
  antecedent : AST
  consequent : AST
deriving DecidableEq, Repr

/-- `getImplicationParts`: `null` is modelled as `none`. -/
def getImplicationParts : AST → Option ImplicationParts
  | .binary .implies l r => some ⟨l, r⟩
  | _ => none

/-- `negate`. -/
def negate (a : AST) : AST := .unary .not a

/-- `createAtom`. -/
def createAtom (name : String) : AST := .atom name

/-- `createConjunction`. -/
def createConjunction (l r : AST) : AST := .binary .and l r

/-- `createDisjunction`. -/
def createDisjunction (l r : AST) : AST := .binary .or l r

/-- `createImplication`. -/
def createImplication (l r : AST) : AST := .binary .implies l r

/-- `createEquivalence`. -/
def createEquivalence (l r : AST) : AST := .binary .iff l r

/-! ## Lexer (`utilities/formulaLexer.js`) -/

inductive TokenType where
  | IDENTIFIER | OPERATOR | LPAREN | RPAREN | EOF
deriving DecidableEq, Repr

/-- A positioned token; the `EOF` token carries value `none` (JS `null`). -/
structure Tok where
  type : TokenType
  value : Option String
  position : Nat
deriving DecidableEq, Repr

/-- Lexical errors, each carrying the source position and offending
character as in the thrown JS `Error` messages.  `outOfFuel` is the fuel
marker of the embedding, proved unreachable below. -/
inductive LexErr where
  | unexpected (position : Nat) (char : Char)
  | badOpStart (position : Nat) (char : Char)
  | outOfFuel
deriving DecidableEq, Repr

/-- `OPERATOR_MAPPINGS`, in object insertion order. -/
def operatorMappings : List (String × String) :=
  [("∧", "and"), ("AND", "and"), ("&", "and"),
   ("∨", "or"), ("OR", "or"), ("|", "or"),
   ("→", "implies"), ("IMPLIES", "implies"), ("->", "implies"), ("=>", "implies"),
   ("↔", "iff"), ("IFF", "iff"), ("<->", "iff"), ("<=>", "iff"),
   ("~", "not"), ("NOT", "not"), ("!", "not")]

/-- The keys sorted longest-first (`readOperator` sorts the keys by length
descending with a stable sort, so keys of equal length keep their insertion
order); spelled out as a literal to stay kernel-reducible. -/
def operatorsByLength : List (String × String) :=
  [("IMPLIES", "implies"),
   ("AND", "and"), ("IFF", "iff"), ("<->", "iff"), ("<=>", "iff"), ("NOT", "not"),
   ("OR", "or"), ("->", "implies"), ("=>", "implies"),
   ("∧", "and"), ("&", "and"), ("∨", "or"), ("|", "or"),
   ("→", "implies"), ("↔", "iff"), ("~", "not"), ("!", "not")]

/-- `startsOperator`: does some operator alias begin at this input position? -/
def startsOperatorB (cs : List Char) : Bool :=
  operatorMappings.any (fun kv => isPrefixOfChars kv.1.data cs)

/-- Longest-match operator lookup (`readOperator`): the canonical tag and the
number of characters consumed. -/
def matchOp (cs : List Char) : Option (String × Nat) :=
  (operatorsByLength.find? (fun kv => isPrefixOfChars kv.1.data cs)).map
    (fun kv => (kv.2, kv.1.length))

/-- First character of an identifier: `/[A-Za-z]/`. -/
def isIdentStart (c : Char) : Bool := c.isAlpha

/-- Identifier continuation character: `/[A-Za-z0-9_]/`. -/
def isIdentChar (c : Char) : Bool := c.isAlphanum || c = '_'

/-- The lexer scan (`getNextToken` iterated by `tokenize`), with fuel.  Each
step consumes at least one character, so fuel `length + 1` always suffices. -/
def lexRun : Nat → List Char → Nat → Except LexErr (List Tok)
  | 0, _, _ => .error .outOfFuel
  | _ + 1, [], pos => .ok [⟨.EOF, none, pos⟩]
  | fuel + 1, c :: cs, pos =>
    if c.isWhitespace then lexRun fuel cs (pos + 1)
    else if c = '(' then
      (lexRun fuel cs (pos + 1)).map (⟨.LPAREN, some "(", pos⟩ :: ·)
    else if c = ')' then
      (lexRun fuel cs (pos + 1)).map (⟨.RPAREN, some ")", pos⟩ :: ·)
    else if startsOperatorB (c :: cs) then
      match matchOp (c :: cs) with
      | some (canon, len) =>
          (lexRun fuel ((c :: cs).drop len) (pos + len)).map
            (⟨.OPERATOR, some canon, pos⟩ :: ·)
      | none => .error (.badOpStart pos c)
    else if isIdentStart c then
      let name := (c :: cs).takeWhile isIdentChar
      (lexRun fuel ((c :: cs).dropWhile isIdentChar) (pos + name.length)).map
        (⟨.IDENTIFIER, some (String.mk name), pos⟩ :: ·)
    else .error (.unexpected pos c)

/-- JS `String.prototype.trim` on a character list. -/
def trimChars (cs : List Char) : List Char :=
  ((cs.dropWhile Char.isWhitespace).reverse.dropWhile Char.isWhitespace).reverse

/-- `tokenize`: trim the input (the `FormulaLexer` constructor trims), then
scan it completely, ending with the `EOF` token. -/
def tokenize (s : String) : Except LexErr (List Tok) :=
  lexRun ((trimChars s.data).length + 1) (trimChars s.data) 0

/-! ## Parser (`utilities/formulaParser.js`) -/

/-- A position-erased token: the parser branches only on type and value. -/
structure ETok where
  type : TokenType
  value : Option String
deriving DecidableEq, Repr

def eraseTok (t : Tok) : ETok := ⟨t.type, t.value⟩

/-- `match(OPERATOR, name)` on the current token. -/
def isOpTok (t : ETok) (name : String) : Bool :=
  decide (t.type = .OPERATOR) && decide (t.value = some name)

/-- The grammar levels of the recursive-descent parser.  `equivT`, `disjT`
and `conjT` are the trailing `while` loops of `parseEquivalence`,
`parseDisjunction` and `parseConjunction`; their `AST` argument is the
accumulated left operand (ignored by the other levels). -/
inductive PRank where
  | equiv | equivT | impl | disj | disjT | conj | conjT | neg | primary
deriving DecidableEq, Repr

/-- The recursive-descent parser, one level per `PRank`, returning the parsed
AST and the unconsumed tokens.  Fuel decreases on every call; it bounds only
the call depth, proved sufficient where used. -/
def parseL : Nat → PRank → AST → List ETok → Except String (AST × List ETok)
  | 0, _, _, _ => .error "parser fuel exhausted"
  | fuel + 1, .equiv, acc, ts =>
    match parseL fuel .impl acc ts with
    | .error e => .error e
    | .ok (l, ts1) => parseL fuel .equivT l ts1
  | fuel + 1, .equivT, left, ts =>
    match ts with
    | [] => .ok (left, [])
    | t :: rest =>
      if isOpTok t "iff" then
        match parseL fuel .impl left rest with
        | .error e => .error e
        | .ok (r, ts1) => parseL fuel .equivT (.binary .iff left r) ts1
      else .ok (left, t :: rest)
  | fuel + 1, .impl, acc, ts =>
    match parseL fuel .disj acc ts with
    | .error e => .error e
    | .ok (l, ts1) =>
      match ts1 with
      | [] => .ok (l, [])
      | t :: rest =>
        if isOpTok t "implies" then
          match parseL fuel .impl acc rest with
          | .error e => .error e
          | .ok (r, ts2) => .ok (.binary .implies l r, ts2)
        else .ok (l, t :: rest)
  | fuel + 1, .disj, acc, ts =>
    match parseL fuel .conj acc ts with
    | .error e => .error e
    | .ok (l, ts1) => parseL fuel .disjT l ts1
  | fuel + 1, .disjT, left, ts =>
    match ts with
    | [] => .ok (left, [])
    | t :: rest =>
      if isOpTok t "or" then
        match parseL fuel .conj left rest with
        | .error e => .error e
        | .ok (r, ts1) => parseL fuel .disjT (.binary .or left r) ts1
      else .ok (left, t :: rest)
  | fuel + 1, .conj, acc, ts =>
    match parseL fuel .neg acc ts with
    | .error e => .error e
    | .ok (l, ts1) => parseL fuel .conjT l ts1
  | fuel + 1, .conjT, left, ts =>
    match ts with
    | [] => .ok (left, [])
    | t :: rest =>
      if isOpTok t "and" then
        match parseL fuel .neg left rest with
        | .error e => .error e
        | .ok (r, ts1) => parseL fuel .conjT (.binary .and left r) ts1
      else .ok (left, t :: rest)
  | fuel + 1, .neg, acc, ts =>
    match ts with
    | [] => parseL fuel .primary acc []
    | t :: rest =>
      if isOpTok t "not" then
        match parseL fuel .neg acc rest with
        | .error e => .error e
        | .ok (x, ts1) => .ok (negate x, ts1)
      else parseL fuel .primary acc (t :: rest)
  | fuel + 1, .primary, acc, ts =>
    match ts with
    | [] => .error "Expected identifier or opening paren"
    | t :: rest =>
      if t.type = .LPAREN then
        match parseL fuel .equiv acc rest with
        | .error e => .error e
        | .ok (inner, ts1) =>
          match ts1 with
          | [] => .error "Expected closing paren after expression"
          | t2 :: rest2 =>
            if t2.type = .RPAREN then .ok (inner, rest2)
            else .error "Expected closing paren after expression"
      else if t.type = .IDENTIFIER then
        .ok (.atom (t.value.getD ""), rest)
      else .error "Expected identifier or opening paren"

/-- `FormulaParser.parse`: parse a complete formula, then require the
remaining token, if any, to be `EOF`. -/
def parseTokens (ts : List ETok) : Except String AST :=
  match parseL (9 * ts.length + 9) .equiv (.atom "") ts with
  | .error e => .error e
  | .ok (a, rest) =>
    match rest with
    | [] => .ok a
    | t :: _ => if t.type = .EOF then .ok a else .error "Unexpected token after complete formula"

def lexErrMessage : LexErr → String
  | .unexpected pos c => "Unexpected character " ++ String.mk [c] ++ " at position " ++ toString pos
  | .badOpStart pos c => "Unknown operator starting with " ++ String.mk [c] ++ " at position " ++ toString pos
  | .outOfFuel => "lexer fuel exhausted"

/-- `parseFormulaFromString`. -/
def parseFormulaFromString (s : String) : Except String AST :=
  match tokenize s with
  | .error e => .error (lexErrMessage e)
  | .ok ts => parseTokens (ts.map eraseTok)

/-- `parseFormula` in `gentzen.js`: parse, then normalize the AST.  The
returned formula object is represented by its normalized AST; its canonical
string form is `astToString`. -/
def parseFormula (s : String) : Except String AST :=
  (parseFormulaFromString s).map normalizeAST

/-! ## Formula utilities (`utilities/formulaUtils.js`) -/

/-- `normalizeFormula`: parse and re-render; JS exceptions become `Except`. -/
def normalizeFormula (f : String) : Except String String :=
  (parseFormula f).map astToString

/-- `extractFormulaAtoms`. -/
def extractFormulaAtoms (f : String) : Except String (List String) :=
  (parseFormula f).map getAtoms

/-- The string-level canonicalization loop of `canonicalDoubleNeg`. -/
def cdnChars : List Char → List Char
  | '~' :: '~' :: rest => cdnChars rest
  | cs => cs

/-- `canonicalDoubleNeg`: strip every leading `~~` pair. -/
def canonicalDoubleNeg (s : String) : String := String.mk (cdnChars s.data)

/-- `atom.replace(/^~+/, '')`: strip a leading run of tildes. -/
def stripLeadingTildes (s : String) : String := String.mk (s.data.dropWhile (· = '~'))

/-- Result record of `extractMissingFactsFromFormula`. -/
structure Resolve where
  canResolve : Bool
  missing : List String
deriving DecidableEq, Repr

/-- `extractMissingFactsFromFormula`. -/
def extractMissingFactsFromFormula (formula : String) (resolvable : String → Bool) :
    Except String Resolve :=
  (parseFormula formula).map fun ast =>
    let missing := ((getAtoms ast).filter (fun a => !resolvable a)).map stripLeadingTildes
    ⟨missing.isEmpty, missing⟩

/-! ## Derivation state and rules (`gentzen.js`) -/

/-- Safeguard constants guaranteeing termination. -/
def MAX_ITERATIONS : Nat := 1000

def MAX_QUEUE_SIZE : Nat := 1000

def MAX_STEPS : Nat := 100

/-- A derivation step: `{origin, ruleType, from, formulas}`.  `fromRefs` are
the weak antecedent backlinks (`from` is a Lean keyword); `formulas` is the
step's formula set in insertion order (always a singleton at every
construction site). -/
inductive Step where
  | mk (origin : String) (ruleType : String) (fromRefs : List Step) (formulas : List String)

def Step.origin : Step → String
  | .mk o _ _ _ => o

def Step.ruleType : Step → String
  | .mk _ rt _ _ => rt

def Step.fromRefs : Step → List Step
  | .mk _ _ fr _ => fr

def Step.formulas : Step → List String
  | .mk _ _ _ fs => fs

instance : Inhabited Step := ⟨.mk "" "" [] []⟩

def defaultStep : Step := .mk "" "" [] []

/-- The `GentzenSystem` state: facts, append-only steps, and the two
diagnostic collections. -/
structure System where
  facts : List String
  steps : List Step
  missingFacts : List String
  skippedSteps : List String

/-- A fresh `GentzenSystem`. -/
def emptySystem : System := ⟨[], [], [], []⟩

/-- `cloneSystem`: copy facts and rebuild each step record (the `from`
references are copied as-is, not remapped). -/
def cloneStep (s : Step) : Step := .mk s.origin s.ruleType s.fromRefs s.formulas

def cloneSystem (sys : System) : System :=
  { facts := sys.facts, steps := sys.steps.map cloneStep,
    missingFacts := [], skippedSteps := [] }

/-- First-occurrence deduplication (`[...new Set(xs)]`). -/
def dedupFirst (l : List String) : List String :=
  l.foldl (fun acc f => if acc.contains f then acc else acc ++ [f]) []

/-- `getSystemSignature`: canonical (double-negation-stripped) formulas of
all steps then all facts, deduplicated, sorted, joined. -/
def getSystemSignature (sys : System) : String :=
  let formulas :=
    (sys.steps.flatMap fun st => st.formulas.map canonicalDoubleNeg) ++
      sys.facts.map canonicalDoubleNeg
  String.intercalate " | " ((dedupFirst formulas).mergeSort (fun a b => decide (a ≤ b)))

/-- All formulas known to a system, double-negation-stripped (the `known`
set of `didWeDeriveNewFormula`). -/
def knownFormulas (sys : System) : List String :=
  (sys.steps.flatMap fun st => st.formulas.map canonicalDoubleNeg) ++
    sys.facts.map canonicalDoubleNeg

/-- `didWeDeriveNewFormula` (the `newSystem` argument is unused in the
source body as well). -/
def didWeDeriveNewFormula (originalSystem : System) (_newSystem : System) (newStep : Step) :
    Bool :=
  newStep.formulas.any (fun f => !(knownFormulas originalSystem).contains (canonicalDoubleNeg f))

/-- `getUniqueFormula`: the single formula of a step, or an error. -/
def getUniqueFormula (step : Step) : Except String String :=
  match step.formulas with
  | [f] => .ok f
  | _ => .error "Step must contain exactly one formula."

/-- `addFact`. -/
def addFact (sys : System) (formulaStr : String) : System :=
  { sys with facts := sys.facts ++ [formulaStr] }

/-- `addProposition`: append a proposition step and return it. -/
def addProposition (sys : System) (formulaStr : String) : Step × System :=
  let step := Step.mk "Proposition" "fact" [] [formulaStr]
  (step, { sys with steps := sys.steps ++ [step] })

/-- `isFactAvailable`: exact-string membership in facts or step formulas. -/
def isFactAvailable (sys : System) (factName : String) : Bool :=
  sys.facts.contains factName ||
    sys.steps.any (fun st => st.formulas.contains factName)

/-- `isAtomResolvable`: closed-world auto-negation. -/
def isAtomResolvable (sys : System) (atom : String) : Bool :=
  if isFactAvailable sys atom then true
  else if strStartsWith atom "~" then !isFactAvailable sys (strDrop atom 1)
  else isFactAvailable sys ("~" ++ atom)

/-- `canResolveFormula`. -/
def canResolveFormula (sys : System) (formula : String) : Except String Resolve :=
  extractMissingFactsFromFormula formula (fun atom => isAtomResolvable sys atom)

/-- The fact loop of `isProved` (and the per-step formula loop, which has
identical logic), with the source's early return on the first match. -/
def isProvedFormulas (nt : String) : List String → Except String Bool
  | [] => .ok false
  | f :: rest =>
    match normalizeFormula f with
    | .error e => .error e
    | .ok nf => if nf = nt then .ok true else isProvedFormulas nt rest

/-- The step loop of `isProved`. -/
def isProvedSteps (nt : String) : List Step → Except String Bool
  | [] => .ok false
  | st :: rest =>
    match isProvedFormulas nt st.formulas with
    | .error e => .error e
    | .ok true => .ok true
    | .ok false => isProvedSteps nt rest

/-- `isProved`: is the target, canonically normalized, among the facts or
step formulas (each normalized in turn)? -/
def isProved (sys : System) (targetFormula : String) : Except String Bool :=
  match normalizeFormula targetFormula with
  | .error e => .error e
  | .ok nt =>
    match isProvedFormulas nt sys.facts with
    | .error e => .error e
    | .ok true => .ok true
    | .ok false => isProvedSteps nt sys.steps

/-- `alphaRule`: each rule returns the outcome (new step or thrown error)
together with the resulting state; every throw happens before the push, so
the state returned with an error is the unchanged input. -/
def alphaRule (sys : System) (step1 step2 : Step) (ruleType : String) :
    Except String Step × System :=
  match getUniqueFormula step1 with
  | .error e => (.error e, sys)
  | .ok A =>
    match getUniqueFormula step2 with
    | .error e => (.error e, sys)
    | .ok B =>
      if ruleType = "and" then
        let newStep := Step.mk "AlphaRule" ruleType [step1, step2] ["(" ++ A ++ " ∧ " ++ B ++ ")"]
        (.ok newStep, { sys with steps := sys.steps ++ [newStep] })
      else if ruleType = "implies" then
        let newStep := Step.mk "AlphaRule" ruleType [step1, step2] ["(" ++ A ++ " → " ++ B ++ ")"]
        (.ok newStep, { sys with steps := sys.steps ++ [newStep] })
      else (.error "Unknown subtype for alpha rule.", sys)

/-- `betaRule`. -/
def betaRule (sys : System) (step1 step2 : Step) : Except String Step × System :=
  match getUniqueFormula step1 with
  | .error e => (.error e, sys)
  | .ok A =>
    match getUniqueFormula step2 with
    | .error e => (.error e, sys)
    | .ok B =>
      let newStep := Step.mk "BetaRule" "or" [step1, step2] ["(" ++ A ++ " ∨ " ++ B ++ ")"]
      (.ok newStep, { sys with steps := sys.steps ++ [newStep] })

/-- `contrapositionRule`: parse the step's formula, require an implication
`(A → B)`, and append `(~B → ~A)` built by negating and re-rendering. -/
def contrapositionRule (sys : System) (step : Step) : Except String Step × System :=
  match getUniqueFormula step with
  | .error e => (.error e, sys)
  | .ok f =>
    match parseFormula f with
    | .error e => (.error e, sys)
    | .ok ast =>
      match ast with
      | .binary .implies A B =>
        let contrapositive := createImplication (negate B) (negate A)
        let newFormula := astToString contrapositive
        let newStep := Step.mk "ContrapositionRule" "contraposition" [step] [newFormula]
        (.ok newStep, { sys with steps := sys.steps ++ [newStep] })
      | _ => (.error "Formula is not an implication - contraposition requires an implication.", sys)

/-- `doubleNegationRule`: any mode other than `introduction` behaves as
elimination, as in the source's `if`/`else`. -/
def doubleNegationRule (sys : System) (step : Step) (mode : String) :
    Except String Step × System :=
  match getUniqueFormula step with
  | .error e => (.error e, sys)
  | .ok f =>
    let newFormula :=
      if mode = "introduction" then (if strStartsWith f "~~" then f else "~~" ++ f)
      else (if strStartsWith f "~~" then strDrop f 2 else f)
    let rt := if mode = "introduction" then "doubleNegIntro" else "doubleNegElim"
    let newStep := Step.mk "DoubleNegationRule" rt [step] [newFormula]
    (.ok newStep, { sys with steps := sys.steps ++ [newStep] })

/-- `equivalenceRule`. -/
def equivalenceRule (sys : System) (step1 step2 : Step) : Except String Step × System :=
  match getUniqueFormula step1 with
  | .error e => (.error e, sys)
  | .ok A =>
    match getUniqueFormula step2 with
    | .error e => (.error e, sys)
    | .ok B =>
      let newStep := Step.mk "EquivalenceRule" "equiv" [step1, step2] ["(" ++ A ++ " ↔ " ++ B ++ ")"]
      (.ok newStep, { sys with steps := sys.steps ++ [newStep] })

/-! ## Bounded proof search (`gentzen.js`, `expandOneLevel` / `searchForProof`) -/

/-- The four binary-rule combos tried for every ordered step pair, in source
order. -/
inductive BinRule where
  | alphaAnd | alphaImplies | beta | equivalence
deriving DecidableEq, Repr

def binCombos : List BinRule := [.alphaAnd, .alphaImplies, .beta, .equivalence]

def applyBinRule (sys : System) (s1 s2 : Step) : BinRule → Except String Step × System
  | .alphaAnd => alphaRule sys s1 s2 "and"
  | .alphaImplies => alphaRule sys s1 s2 "implies"
  | .beta => betaRule sys s1 s2
  | .equivalence => equivalenceRule sys s1 s2

/-- The three unary-rule combos tried for every step, in source order. -/
inductive UnRule where
  | contraposition | dnIntro | dnElim
deriving DecidableEq, Repr

def unCombos : List UnRule := [.contraposition, .dnIntro, .dnElim]

def applyUnRule (sys : System) (s : Step) : UnRule → Except String Step × System
  | .contraposition => contrapositionRule sys s
  | .dnIntro => doubleNegationRule sys s "introduction"
  | .dnElim => doubleNegationRule sys s "elimination"

/-- One candidate expansion: clone, apply the rule to the clone's steps,
keep the clone only if the rule succeeded and derived a new formula. -/
def tryBinCombo (sys : System) (i j : Nat) (c : BinRule) : Option System :=
  let clone := cloneSystem sys
  let r := applyBinRule clone (clone.steps.getD i defaultStep) (clone.steps.getD j defaultStep) c
  match r.1 with
  | .ok st => if didWeDeriveNewFormula sys r.2 st then some r.2 else none
  | .error _ => none

def tryUnCombo (sys : System) (i : Nat) (c : UnRule) : Option System :=
  let clone := cloneSystem sys
  let r := applyUnRule clone (clone.steps.getD i defaultStep) c
  match r.1 with
  | .ok st => if didWeDeriveNewFormula sys r.2 st then some r.2 else none
  | .error _ => none

/-- `expandOneLevel`: zero successors at the step ceiling; otherwise every
ordered step pair under the four binary rules, then every step under the
three unary rules, keeping the clones that derived something new. -/
def expandOneLevel (sys : System) : List System :=
  if MAX_STEPS ≤ sys.steps.length then []
  else
    let n := sys.steps.length
    ((List.range n).flatMap fun i =>
      (List.range n).flatMap fun j =>
        binCombos.filterMap fun c => tryBinCombo sys i j c) ++
    ((List.range n).flatMap fun i =>
      unCombos.filterMap fun c => tryUnCombo sys i c)

/-- The result record of `searchForProof`. -/
structure SearchResult where
  proven : Bool
  path : List String
  missingFacts : List String
  skippedSteps : List String
  depth : Nat
deriving DecidableEq, Repr

/-- The initial `result` object. -/
def emptyResult : SearchResult :=
  { proven := false, path := [], missingFacts := [], skippedSteps := [], depth := 0 }

/-- Outcome of the search: a returned result, a propagated JS exception, or
the fuel marker of the embedding (proved unreachable). -/
inductive SOut where
  | res (r : SearchResult)
  | thrown (e : String)
  | fuelOut
deriving DecidableEq, Repr

/-- Did the search return a result (as opposed to throwing or running out
of model fuel)? -/
def SOut.isRes : SOut → Bool
  | .res _ => true
  | _ => false

/-- Is this the fuel marker of the embedding? -/
def SOut.isFuelOut : SOut → Bool
  | .fuelOut => true
  | _ => false

/-- A queue entry `{system, depth, path}`. -/
abbrev QEntry := System × Nat × List String

/-- The `for (const child of system.expandOneLevel())` body: check each
child for the target, and enqueue unvisited signatures. -/
def scanChildren (target : String) (depth : Nat) (path : List String) :
    List System → List String → List QEntry →
    Except String (Sum SearchResult (List String × List QEntry))
  | [], visited, acc => .ok (.inr (visited, acc))
  | child :: rest, visited, acc =>
    match isProved child target with
    | .error e => .error e
    | .ok true =>
      .ok (.inl { emptyResult with
                    proven := true, path := path ++ ["final_step"], depth := depth + 1 })
    | .ok false =>
      let sig := getSystemSignature child
      if visited.contains sig then scanChildren target depth path rest visited acc
      else
        scanChildren target depth path rest (visited ++ [sig])
          (acc ++ [(child, depth + 1, path ++ ["step_" ++ toString (depth + 1)])])

/-- The BFS `while (queue.length)` loop.  `iters` is the `iterations`
counter; the fuel only bounds the loop depth and is proved unreachable at
the budget used by `searchForProof`. -/
def searchLoop (target : String) (maxDepth : Nat) :
    Nat → List QEntry → List String → Nat → SOut
  | 0, _, _, _ => .fuelOut
  | fuel + 1, queue, visited, iters =>
    match queue with
    | [] => .res emptyResult
    | (system, depth, path) :: rest =>
      if MAX_ITERATIONS < iters + 1 ∨ MAX_QUEUE_SIZE < queue.length then .res emptyResult
      else
        match isProved system target with
        | .error e => .thrown e
        | .ok true => .res { emptyResult with proven := true, path := path, depth := depth }
        | .ok false =>
          if maxDepth ≤ depth then searchLoop target maxDepth fuel rest visited (iters + 1)
          else
            match scanChildren target depth path (expandOneLevel system) visited [] with
            | .error e => .thrown e
            | .ok (.inl r) => .res r
            | .ok (.inr (visited2, newEntries)) =>
              searchLoop target maxDepth fuel (rest ++ newEntries) visited2 (iters + 1)

/-- `searchForProof`: the two early returns (already proved; unresolvable
atoms reported as missing facts) followed by the bounded BFS. -/
def searchForProof (sys : System) (targetFormula : String) (maxDepth : Nat) : SOut :=
  match isProved sys targetFormula with
  | .error e => .thrown e
  | .ok true => .res { emptyResult with proven := true }
  | .ok false =>
    match canResolveFormula sys targetFormula with
    | .error e => .thrown e
    | .ok r =>
      if r.canResolve = false then .res { emptyResult with missingFacts := r.missing }
      else
        searchLoop targetFormula maxDepth (MAX_ITERATIONS + 2)
          [(sys, 0, [])] [getSystemSignature sys] 0

/-- One round of rule expansion, as a step relation between states. -/
def Expands (a b : System) : Prop := b ∈ expandOneLevel a

/-- Reachability by finitely many rounds of rule expansion. -/
def Reach : System → System → Prop := Relation.ReflTransGen Expands

/-! ## Spec-side definitions -/

/-- Modelled from the spec: the atom-name pattern `[A-Za-z][A-Za-z0-9_]*`
(section 3, `Atom(name)`).  Used to state the claims about identifier
lexing; the executable lexer above is the source-side definition it is
compared against. -/
def atomNamePattern (s : String) : Bool :=
  match s.data with
  | [] => false
  | c :: cs => isIdentStart c && cs.all isIdentChar

/-- The five keyword operator aliases: the only operator aliases that are
themselves made of identifier characters. -/
def wordAliases : List String := ["AND", "OR", "NOT", "IFF", "IMPLIES"]

/-- Characters of the canonical rendering. -/
def renderChars (a : AST) : List Char := (astToString a).data

/-- Canonical operator-token value of each operator tag. -/
def opName : Operator → String
  | .not => "not"
  | .and => "and"
  | .or => "or"
  | .implies => "implies"
  | .iff => "iff"

/-- The erased token stream obtained by lexing a rendered AST. -/
def etok : AST → List ETok
  | .atom n => [⟨.IDENTIFIER, some n⟩]
  | .unary _ x => ⟨.OPERATOR, some "not"⟩ :: etok x
  | .binary op l r =>
      ⟨.LPAREN, some "("⟩ ::
        (etok l ++ ⟨.OPERATOR, some (opName op)⟩ :: (etok r ++ [⟨.RPAREN, some ")"⟩]))

/-- A good atom name: matches the atom pattern and no operator alias is a
prefix of it — exactly the names an identifier token can carry. -/
def goodNameB (n : String) : Bool :=
  atomNamePattern n && operatorMappings.all (fun kv => !isPrefixOfChars kv.1.data n.data)

/-- ASTs in the image of the parser: unary nodes are negations, binary
operators are among the four binary tags, and atom names are good. -/
def GoodB : AST → Bool
  | .atom n => goodNameB n
  | .unary op x => decide (op = .not) && GoodB x
  | .binary op l r => decide (¬op = .not) && GoodB l && GoodB r

/-- No double negation anywhere: the normal forms of `normalizeAST`. -/
def noDN : AST → Bool
  | .unary .not (.unary .not _) => false
  | .atom _ => true
  | .unary _ x => noDN x
  | .binary _ l r => noDN l && noDN r

/-- The top of the AST is not a negation node. -/
def notNegHead : AST → Bool
  | .unary .not _ => false
  | _ => true

/-- Suffixes at which the lexer resumes after a rendered sub-formula:
nothing, a space, or a closing parenthesis. -/
def Boundary (cs : List Char) : Prop :=
  cs = [] ∨ (∃ cs2, cs = ' ' :: cs2) ∨ ∃ cs2, cs = ')' :: cs2

/-- The head token, if any, is not the given operator. -/
def notHeadOp (ts : List ETok) (name : String) : Bool :=
  ts.head?.all (fun t => !isOpTok t name)

/-- Every identifier token in the list carries a good atom name. -/
def IdentGood (ts : List ETok) : Prop :=
  ∀ t ∈ ts, t.type = .IDENTIFIER → goodNameB (t.value.getD "") = true

/-- The accumulator constraint of each parser level: only the loop levels
read their accumulated left operand. -/
def AccGood : PRank → AST → Prop
  | .equivT, acc => GoodB acc = true
  | .disjT, acc => GoodB acc = true
  | .conjT, acc => GoodB acc = true
  | _, _ => True

/-! ## Theorems -/

theorem strMk_data (s : String) : String.mk s.data = s := rfl

theorem renderChars_atom (n : String) : renderChars (.atom n) = n.data := rfl

theorem renderChars_unary (op : Operator) (x : AST) :
    renderChars (.unary op x) = '~' :: renderChars x := by
  show (("~" : String) ++ astToString x).data = _
  rw [String.data_append]
  rfl

theorem renderChars_binary (op : Operator) (l r : AST) :
    renderChars (.binary op l r) =
      '(' :: (renderChars l ++ ' ' :: ((opSymbol op).data ++ ' ' :: (renderChars r ++ [')']))) := by
  show (("(" : String) ++ astToString l ++ " " ++ opSymbol op ++ " " ++ astToString r ++ ")").data = _
  simp only [String.data_append, List.append_assoc]
  rfl

theorem takeWhile_all {p : Char → Bool} :
    ∀ l : List Char, (∀ c ∈ l, p c = true) → l.takeWhile p = l := by
  intro l h
  induction l with
  | nil => rfl
  | cons a l2 ih =>
    rw [List.takeWhile_cons, h a (List.mem_cons_self _ _)]
    simp [ih (fun c hc => h c (List.mem_cons_of_mem _ hc))]

theorem dropWhile_all {p : Char → Bool} :
    ∀ l : List Char, (∀ c ∈ l, p c = true) → l.dropWhile p = [] := by
  intro l h
  induction l with
  | nil => rfl
  | cons a l2 ih =>
    rw [List.dropWhile_cons, h a (List.mem_cons_self _ _)]
    simp [ih (fun c hc => h c (List.mem_cons_of_mem _ hc))]

theorem length_dropWhile_le (p : Char → Bool) (l : List Char) :
    (l.dropWhile p).length ≤ l.length := by
  induction l with
  | nil => simp
  | cons a l2 ih =>
    rw [List.dropWhile_cons]
    by_cases hp : p a = true
    · simp only [if_pos hp]
      exact Nat.le_trans ih (Nat.le_succ _)
    · simp only [if_neg hp, List.length_cons, Nat.le_refl]

theorem dropWhile_eq_drop (p : Char → Bool) (l : List Char) :
    l.dropWhile p = l.drop (l.takeWhile p).length := by
  calc l.dropWhile p
      = (l.takeWhile p ++ l.dropWhile p).drop (l.takeWhile p).length :=
        (List.drop_left _ _).symm
    _ = l.drop (l.takeWhile p).length := by rw [List.takeWhile_append_dropWhile]

theorem trimChars_eq_self {l : List Char} (h : ∀ c ∈ l, c.isWhitespace = false) :
    trimChars l = l := by
  unfold trimChars
  have h1 : l.dropWhile Char.isWhitespace = l := by
    cases l with
    | nil => rfl
    | cons a l2 => simp [List.dropWhile_cons, h a (List.mem_cons_self _ _)]
  rw [h1]
  have h2 : l.reverse.dropWhile Char.isWhitespace = l.reverse := by
    cases hr : l.reverse with
    | nil => rfl
    | cons a l2 =>
      have ha : a ∈ l := by
        rw [← List.mem_reverse, hr]; exact List.mem_cons_self _ _
      simp [List.dropWhile_cons, h a ha]
  rw [h2, List.reverse_reverse]

theorem identStart_isIdentChar {c : Char} (h : isIdentStart c = true) : isIdentChar c = true := by
  simp only [isIdentStart] at h
  simp [isIdentChar, Char.isAlphanum, h]

theorem identChar_not_ws {c : Char} (h : isIdentChar c = true) : c.isWhitespace = false := by
  cases hw : c.isWhitespace with
  | false => rfl
  | true =>
    exfalso
    have h4 : ((c = ' ' ∨ c = '\t') ∨ c = '\r') ∨ c = '\n' := by
      simpa [Char.isWhitespace] using hw
    rcases h4 with ((rfl | rfl) | rfl) | rfl <;> exact absurd h (by decide)

theorem isPrefixOfChars_eq (a : List Char) : ∀ b, isPrefixOfChars a b = List.isPrefixOf a b := by
  induction a with
  | nil => intro b; cases b <;> simp [isPrefixOfChars]
  | cons x xs ih =>
    intro b
    cases b with
    | nil => rfl
    | cons y ys => simp [isPrefixOfChars, List.isPrefixOf_cons₂, ih]

theorem head_eq_of_isPrefixOf {d c : Char} {ds cs : List Char}
    (h : isPrefixOfChars (d :: ds) (c :: cs) = true) : d = c := by
  rw [isPrefixOfChars] at h
  have h2 : (d == c) = true := by
    cases hdc : d == c with
    | true => rfl
    | false => rw [hdc] at h; simp at h
  exact beq_iff_eq.mp h2

theorem startsOp_false_of_ident {c : Char} {cs : List Char} (hc : isIdentStart c = true)
    (hw : ∀ k ∈ wordAliases, isPrefixOfChars k.data (c :: cs) = false) :
    startsOperatorB (c :: cs) = false := by
  cases hso : startsOperatorB (c :: cs) with
  | false => rfl
  | true =>
    exfalso
    have hso2 : operatorMappings.any (fun kv => isPrefixOfChars kv.1.data (c :: cs)) = true := hso
    obtain ⟨kv, hkv, hpre⟩ := List.any_eq_true.mp hso2
    have hclass : ∀ kv2 ∈ operatorMappings, kv2.1 ∈ wordAliases ∨
        kv2.1.data.head?.all (fun hd => !isIdentStart hd) = true := by decide
    rcases hclass kv hkv with hword | hsym
    · rw [hw kv.1 hword] at hpre
      simp at hpre
    · cases hkd : kv.1.data with
      | nil =>
        have hne : ∀ kv2 ∈ operatorMappings, kv2.1.data ≠ [] := by decide
        exact hne kv hkv hkd
      | cons hd tl =>
        rw [hkd] at hpre
        rw [hkd] at hsym
        have hf : (!isIdentStart hd) = true := by simpa using hsym
        rw [head_eq_of_isPrefixOf hpre, hc] at hf
        simp at hf

theorem except_map_error {α β γ : Type} {x : Except γ α} {f : α → β} {e : γ}
    (h : x.map f = .error e) : x = .error e := by
  cases x with
  | error e2 => simpa [Except.map] using h
  | ok v => simp [Except.map] at h

theorem matchOp_isSome_of_starts {cs : List Char} (h : startsOperatorB cs = true) :
    (matchOp cs).isSome = true := by
  have h2 : operatorMappings.any (fun kv => isPrefixOfChars kv.1.data cs) = true := h
  obtain ⟨kv, hkv, hpre⟩ := List.any_eq_true.mp h2
  have hkv2 : kv ∈ operatorsByLength := by fin_cases hkv <;> decide
  unfold matchOp
  cases hf : operatorsByLength.find? (fun kv => isPrefixOfChars kv.1.data cs) with
  | none =>
    have h3 : (operatorsByLength.find? (fun kv => isPrefixOfChars kv.1.data cs)).isSome :=
      List.find?_isSome.mpr ⟨kv, hkv2, hpre⟩
    rw [hf] at h3; simp at h3
  | some kv2 => simp [Option.map]

theorem matchOp_some_len {cs : List Char} {canon : String} {len : Nat}
    (h : matchOp cs = some (canon, len)) : 1 ≤ len := by
  unfold matchOp at h
  cases hf : operatorsByLength.find? (fun kv => isPrefixOfChars kv.1.data cs) with
  | none => rw [hf] at h; simp [Option.map] at h
  | some kv =>
    rw [hf] at h
    simp only [Option.map, Option.some.injEq, Prod.mk.injEq] at h
    obtain ⟨-, hlen⟩ := h
    have hm := List.mem_of_find?_eq_some hf
    have h1 : 1 ≤ kv.1.length := by fin_cases hm <;> decide
    omega

/-- Where the lexer can throw: a lexical error is always an
`unexpected`-character error, raised at a position holding a character that
is not whitespace, starts no parenthesis, no operator alias, and no
identifier. -/
theorem lexRun_error_unexpected :
    ∀ fuel cs pos e, cs.length < fuel → lexRun fuel cs pos = .error e →
      ∃ k c rest, e = .unexpected (pos + k) c ∧ cs.drop k = c :: rest ∧
        c.isWhitespace = false ∧ c ≠ '(' ∧ c ≠ ')' ∧
        startsOperatorB (c :: rest) = false ∧ isIdentStart c = false := by
  intro fuel
  induction fuel with
  | zero => intro cs pos e hf h; omega
  | succ f ih =>
    intro cs pos e hf h
    cases cs with
    | nil => simp [lexRun] at h
    | cons c cs2 =>
      have hf2 : cs2.length < f := by
        simp only [List.length_cons] at hf; omega
      simp only [lexRun] at h
      by_cases hws : c.isWhitespace = true
      · rw [if_pos hws] at h
        obtain ⟨k, c2, rest, he, hdrop, hprops⟩ := ih cs2 (pos + 1) e hf2 h
        refine ⟨k + 1, c2, rest, ?_, ?_, hprops⟩
        · rw [he]; congr 1; omega
        · rw [List.drop_succ_cons]; exact hdrop
      · rw [if_neg hws] at h
        by_cases hlp : c = '('
        · rw [if_pos hlp] at h
          obtain ⟨k, c2, rest, he, hdrop, hprops⟩ :=
            ih cs2 (pos + 1) e hf2 (except_map_error h)
          refine ⟨k + 1, c2, rest, ?_, ?_, hprops⟩
          · rw [he]; congr 1; omega
          · rw [List.drop_succ_cons]; exact hdrop
        · rw [if_neg hlp] at h
          by_cases hrp : c = ')'
          · rw [if_pos hrp] at h
            obtain ⟨k, c2, rest, he, hdrop, hprops⟩ :=
              ih cs2 (pos + 1) e hf2 (except_map_error h)
            refine ⟨k + 1, c2, rest, ?_, ?_, hprops⟩
            · rw [he]; congr 1; omega
            · rw [List.drop_succ_cons]; exact hdrop
          · rw [if_neg hrp] at h
            by_cases hso : startsOperatorB (c :: cs2) = true
            · rw [if_pos hso] at h
              cases hmo : matchOp (c :: cs2) with
              | none =>
                have h3 := matchOp_isSome_of_starts hso
                rw [hmo] at h3; simp at h3
              | some p =>
                obtain ⟨canon, len⟩ := p
                rw [hmo] at h
                have hlen := matchOp_some_len hmo
                have hf3 : ((c :: cs2).drop len).length < f := by
                  rw [List.length_drop]
                  simp only [List.length_cons] at hf ⊢
                  omega
                obtain ⟨k, c2, rest, he, hdrop, hprops⟩ :=
                  ih _ (pos + len) e hf3 (except_map_error h)
                refine ⟨len + k, c2, rest, ?_, ?_, hprops⟩
                · rw [he]; congr 1; omega
                · rw [List.drop_drop] at hdrop; exact hdrop
            · rw [if_neg hso] at h
              by_cases hid : isIdentStart c = true
              · rw [if_pos hid] at h
                have hic : isIdentChar c = true := identStart_isIdentChar hid
                have hdw : (c :: cs2).dropWhile isIdentChar = cs2.dropWhile isIdentChar := by
                  simp [List.dropWhile_cons, hic]
                have hf3 : ((c :: cs2).dropWhile isIdentChar).length < f := by
                  rw [hdw]
                  exact Nat.lt_of_le_of_lt (length_dropWhile_le _ _) hf2
                obtain ⟨k, c2, rest, he, hdrop, hprops⟩ :=
                  ih _ (pos + ((c :: cs2).takeWhile isIdentChar).length) e hf3
                    (except_map_error h)
                refine ⟨((c :: cs2).takeWhile isIdentChar).length + k, c2, rest, ?_, ?_, hprops⟩
                · rw [he]; congr 1; omega
                · rw [dropWhile_eq_drop isIdentChar (c :: cs2), List.drop_drop] at hdrop
                  exact hdrop
              · rw [if_neg hid] at h
                have he : LexErr.unexpected pos c = e := by
                  injection h
                refine ⟨0, c, cs2, ?_, by simp, ?_, hlp, hrp, ?_, ?_⟩
                · rw [← he]; congr 1
                · simpa using hws
                · simpa using hso
                · simpa using hid

/-- C4 counterexample: `"AND"` matches the atom-name pattern, but lexes as
a single operator token (not an identifier token), and parsing it fails. -/
theorem claim4_counterexample :
    atomNamePattern "AND" = true ∧
    tokenize "AND" = .ok [⟨.OPERATOR, some "and", 0⟩, ⟨.EOF, none, 3⟩] ∧
    tokenize "AND" ≠ .ok [⟨.IDENTIFIER, some "AND", 0⟩, ⟨.EOF, none, 3⟩] ∧
    (parseFormulaFromString "AND").isOk = false :=
  ⟨by decide, by decide, by decide, by decide⟩

/-- C4 (amended): for every string matching `[A-Za-z][A-Za-z0-9_]*` that
does not start with one of the keyword aliases `AND`, `OR`, `NOT`, `IFF`,
`IMPLIES`, tokenizing yields the single identifier token (plus `EOF`) and
parsing yields the atom; and a lexical error is raised only at a positioned
character that starts neither whitespace-skipping, an identifier, a
parenthesis, nor a known operator alias. -/
theorem claim4_identifier_lexing :
    (∀ s, atomNamePattern s = true →
      (∀ k ∈ wordAliases, strStartsWith s k = false) →
      tokenize s = .ok [⟨.IDENTIFIER, some s, 0⟩, ⟨.EOF, none, s.length⟩] ∧
      parseFormulaFromString s = .ok (.atom s)) ∧
    (∀ s e, tokenize s = .error e →
      ∃ k c rest, e = .unexpected k c ∧ (trimChars s.data).drop k = c :: rest ∧
        c.isWhitespace = false ∧ c ≠ '(' ∧ c ≠ ')' ∧
        startsOperatorB (c :: rest) = false ∧ isIdentStart c = false) := by
  constructor
  · intro s hpat hw
    obtain ⟨cs⟩ := s
    cases cs with
    | nil => exact absurd hpat (by decide)
    | cons c cs2 =>
      have hpat2 : isIdentStart c = true ∧ cs2.all isIdentChar = true := by
        simpa [atomNamePattern] using hpat
      have hc : isIdentStart c = true := hpat2.1
      have hallc : ∀ d ∈ c :: cs2, isIdentChar d = true := by
        intro d hd
        rcases List.mem_cons.mp hd with rfl | hd2
        · exact identStart_isIdentChar hc
        · exact (List.all_eq_true.mp hpat2.2) d hd2
      have hnws : ∀ d ∈ c :: cs2, d.isWhitespace = false :=
        fun d hd => identChar_not_ws (hallc d hd)
      have htrim : trimChars (c :: cs2) = c :: cs2 := trimChars_eq_self hnws
      have hso : startsOperatorB (c :: cs2) = false :=
        startsOp_false_of_ident hc (fun k hk => hw k hk)
      have h1 : c.isWhitespace = false := hnws c (List.mem_cons_self _ _)
      have h2 : ¬(c = '(') := fun hcc => by
        rw [hcc] at hc; exact absurd hc (by decide)
      have h3 : ¬(c = ')') := fun hcc => by
        rw [hcc] at hc; exact absurd hc (by decide)
      have htok : tokenize ⟨c :: cs2⟩ =
          .ok [⟨.IDENTIFIER, some ⟨c :: cs2⟩, 0⟩, ⟨.EOF, none, (c :: cs2).length⟩] := by
        show lexRun ((trimChars (c :: cs2)).length + 1) (trimChars (c :: cs2)) 0 = _
        rw [htrim]
        simp only [lexRun, h1, h2, h3, hso, hc, takeWhile_all _ hallc, dropWhile_all _ hallc,
          Bool.false_eq_true, if_false, if_true, List.length_cons, Except.map, Nat.zero_add]
      refine ⟨htok, ?_⟩
      show parseFormulaFromString ⟨c :: cs2⟩ = _
      simp only [parseFormulaFromString, htok]
      rfl
  · intro s e h
    have hf : (trimChars s.data).length < (trimChars s.data).length + 1 := Nat.lt_succ_self _
    obtain ⟨k, c, rest, he, hdrop, hprops⟩ :=
      lexRun_error_unexpected ((trimChars s.data).length + 1) (trimChars s.data) 0 e hf h
    exact ⟨k, c, rest, by rw [he]; congr 1; omega, hdrop, hprops⟩

theorem claim4_identifier_lexing_witness :
    tokenize "Widget_1" = .ok [⟨.IDENTIFIER, some "Widget_1", 0⟩, ⟨.EOF, none, 8⟩] ∧
      parseFormulaFromString "Widget_1" = .ok (.atom "Widget_1") :=
  claim4_identifier_lexing.1 "Widget_1" (by decide) (by decide)

/-- Rendering the contrapositive implication built by `contrapositionRule`. -/
theorem astToString_contrapositive (A B : AST) :
    astToString (createImplication (negate B) (negate A)) =
      "(~" ++ astToString B ++ " → ~" ++ astToString A ++ ")" := by
  apply String.ext
  simp [astToString, createImplication, negate, opSymbol]

/-- C5: `isAtomResolvable` implements closed-world auto-negation: an
available atom resolves; an unavailable tilde-atom resolves exactly when its
un-prefixed base is unavailable; an unavailable positive atom resolves
exactly when its negation is available; and with facts `{X}` the four
documented values hold. -/
theorem claim5_atom_resolvability :
    (∀ sys a, isFactAvailable sys a = true → isAtomResolvable sys a = true) ∧
    (∀ sys a, isFactAvailable sys a = false → strStartsWith a "~" = true →
      isAtomResolvable sys a = !isFactAvailable sys (strDrop a 1)) ∧
    (∀ sys a, isFactAvailable sys a = false → strStartsWith a "~" = false →
      isAtomResolvable sys a = isFactAvailable sys ("~" ++ a)) ∧
    isAtomResolvable ⟨["X"], [], [], []⟩ "X" = true ∧
    isAtomResolvable ⟨["X"], [], [], []⟩ "~X" = false ∧
    isAtomResolvable ⟨["X"], [], [], []⟩ "Y" = false ∧
    isAtomResolvable ⟨["X"], [], [], []⟩ "~Y" = true := by
  refine ⟨?_, ?_, ?_, by decide, by decide, by decide, by decide⟩
  · intro sys a h; simp [isAtomResolvable, h]
  · intro sys a h1 h2; simp [isAtomResolvable, h1, h2]
  · intro sys a h1 h2; simp [isAtomResolvable, h1, h2]

theorem claim5_atom_resolvability_witness :
    isFactAvailable ⟨["X"], [], [], []⟩ "~Y" = false ∧ strStartsWith "~Y" "~" = true ∧
      isAtomResolvable ⟨["X"], [], [], []⟩ "~Y" =
        !isFactAvailable ⟨["X"], [], [], []⟩ (strDrop "~Y" 1) :=
  ⟨by decide, by decide,
    claim5_atom_resolvability.2.1 ⟨["X"], [], [], []⟩ "~Y" (by decide) (by decide)⟩

/-- C8: parser precedence and associativity: conjunction binds tighter than
disjunction, disjunction tighter than implication, and implication is
right-associative, witnessed by the three canonical renderings. -/
theorem claim8_precedence :
    (parseFormula "A ∧ B ∨ C").map astToString = .ok "((A ∧ B) ∨ C)" ∧
    (parseFormula "A ∨ B → C").map astToString = .ok "((A ∨ B) → C)" ∧
    (parseFormula "A → B → C").map astToString = .ok "(A → (B → C))" :=
  ⟨by decide, by decide, by decide⟩

/-- C9: `doubleNegationRule` introduction prepends `~~` unless the formula
already starts with `~~` (idempotent); elimination strips exactly one
leading `~~` pair if present and is otherwise a no-op; and parse-time
normalization collapses `~~~~X` to `X` and `~~~X` to `~X`. -/
theorem claim9_double_negation :
    (∀ sys st f, st.formulas = [f] →
      ((doubleNegationRule sys st "introduction").1.map Step.formulas =
        .ok [if strStartsWith f "~~" then f else "~~" ++ f]) ∧
      ((doubleNegationRule sys st "elimination").1.map Step.formulas =
        .ok [if strStartsWith f "~~" then strDrop f 2 else f])) ∧
    (parseFormula "~~~~X").map astToString = .ok "X" ∧
    (parseFormula "~~~X").map astToString = .ok "~X" := by
  refine ⟨?_, by decide, by decide⟩
  intro sys st f h
  have hu : getUniqueFormula st = .ok f := by simp [getUniqueFormula, h]
  constructor
  · simp [doubleNegationRule, hu, Except.map, Step.formulas]
  · simp [doubleNegationRule, hu, Except.map, Step.formulas]

theorem claim9_double_negation_witness :
    ((doubleNegationRule emptySystem (.mk "Proposition" "fact" [] ["~~P"]) "introduction").1.map
        Step.formulas = .ok [if strStartsWith "~~P" "~~" then "~~P" else "~~" ++ "~~P"]) ∧
    ((doubleNegationRule emptySystem (.mk "Proposition" "fact" [] ["~~P"]) "elimination").1.map
        Step.formulas = .ok [if strStartsWith "~~P" "~~" then strDrop "~~P" 2 else "~~P"]) :=
  claim9_double_negation.1 emptySystem (.mk "Proposition" "fact" [] ["~~P"]) "~~P" rfl

/-- C7: `contrapositionRule` on a step holding an implication `(A → B)`
appends and returns a step holding exactly `(~B → ~A)`, built by negating
the parsed antecedent and consequent and re-rendering; on a step whose
formula parses to a non-implication it raises and leaves the state
unchanged. -/
theorem claim7_contraposition :
    (∀ sys st f A B, st.formulas = [f] → parseFormula f = .ok (.binary .implies A B) →
      (contrapositionRule sys st).1.map Step.formulas =
        .ok ["(~" ++ astToString B ++ " → ~" ++ astToString A ++ ")"] ∧
      (contrapositionRule sys st).2.steps =
        sys.steps ++ [Step.mk "ContrapositionRule" "contraposition" [st]
          [astToString (createImplication (negate B) (negate A))]]) ∧
    (∀ sys st f ast, st.formulas = [f] → parseFormula f = .ok ast → isImplication ast = false →
      (contrapositionRule sys st).1.isOk = false ∧ (contrapositionRule sys st).2 = sys) := by
  constructor
  · intro sys st f A B hst hf
    have hu : getUniqueFormula st = .ok f := by simp [getUniqueFormula, hst]
    constructor
    · simp [contrapositionRule, hu, hf, astToString_contrapositive, Except.map, Step.formulas]
    · simp [contrapositionRule, hu, hf]
  · intro sys st f ast hst hf hni
    have hu : getUniqueFormula st = .ok f := by simp [getUniqueFormula, hst]
    rcases ast with n | ⟨op, x⟩ | ⟨op, l, r⟩
    · simp [contrapositionRule, hu, hf, Except.isOk, Except.toBool]
    · simp [contrapositionRule, hu, hf, Except.isOk, Except.toBool]
    · cases op <;>
        simp_all [contrapositionRule, hu, hf, Except.isOk, Except.toBool, isImplication]

theorem claim7_contraposition_witness :
    (contrapositionRule emptySystem (.mk "Proposition" "fact" [] ["(A → B)"])).1.map
        Step.formulas = .ok ["(~" ++ astToString (.atom "B") ++ " → ~" ++ astToString (.atom "A") ++ ")"] :=
  (claim7_contraposition.1 emptySystem (.mk "Proposition" "fact" [] ["(A → B)"]) "(A → B)"
    (.atom "A") (.atom "B") rfl (by decide)).1

/-- C10: every rule operation is atomic on error: whenever a rule
application returns an error outcome, the returned state is the unchanged
input state (no step appended, facts untouched), because each throw happens
before the new step is constructed and pushed. -/
theorem claim10_rule_atomicity :
    (∀ sys s1 s2 rt, (alphaRule sys s1 s2 rt).1.isOk = false → (alphaRule sys s1 s2 rt).2 = sys) ∧
    (∀ sys s1 s2, (betaRule sys s1 s2).1.isOk = false → (betaRule sys s1 s2).2 = sys) ∧
    (∀ sys s1 s2, (equivalenceRule sys s1 s2).1.isOk = false →
      (equivalenceRule sys s1 s2).2 = sys) ∧
    (∀ sys s, (contrapositionRule sys s).1.isOk = false → (contrapositionRule sys s).2 = sys) ∧
    (∀ sys s mode, (doubleNegationRule sys s mode).1.isOk = false →
      (doubleNegationRule sys s mode).2 = sys) := by
  refine ⟨?_, ?_, ?_, ?_, ?_⟩
  · intro sys s1 s2 rt h
    cases h1 : getUniqueFormula s1 with
    | error e => simp [alphaRule, h1]
    | ok A =>
      cases h2 : getUniqueFormula s2 with
      | error e => simp [alphaRule, h1, h2]
      | ok B =>
        by_cases hrt : rt = "and"
        · simp [alphaRule, h1, h2, hrt, Except.isOk, Except.toBool] at h
        · by_cases hrt2 : rt = "implies"
          · simp [alphaRule, h1, h2, hrt, hrt2, Except.isOk, Except.toBool] at h
          · simp [alphaRule, h1, h2, hrt, hrt2]
  · intro sys s1 s2 h
    cases h1 : getUniqueFormula s1 with
    | error e => simp [betaRule, h1]
    | ok A =>
      cases h2 : getUniqueFormula s2 with
      | error e => simp [betaRule, h1, h2]
      | ok B => simp [betaRule, h1, h2, Except.isOk, Except.toBool] at h
  · intro sys s1 s2 h
    cases h1 : getUniqueFormula s1 with
    | error e => simp [equivalenceRule, h1]
    | ok A =>
      cases h2 : getUniqueFormula s2 with
      | error e => simp [equivalenceRule, h1, h2]
      | ok B => simp [equivalenceRule, h1, h2, Except.isOk, Except.toBool] at h
  · intro sys s h
    cases h1 : getUniqueFormula s with
    | error e => simp [contrapositionRule, h1]
    | ok f =>
      cases h2 : parseFormula f with
      | error e => simp [contrapositionRule, h1, h2]
      | ok ast =>
        rcases ast with n | ⟨op, x⟩ | ⟨op, l, r⟩
        · simp [contrapositionRule, h1, h2]
        · simp [contrapositionRule, h1, h2]
        · cases op <;> simp_all [contrapositionRule, h1, h2, Except.isOk, Except.toBool]
  · intro sys s mode h
    cases h1 : getUniqueFormula s with
    | error e => simp [doubleNegationRule, h1]
    | ok f => simp [doubleNegationRule, h1, Except.isOk, Except.toBool] at h

theorem claim10_rule_atomicity_witness :
    (alphaRule emptySystem (.mk "" "" [] ["A", "B"]) (.mk "" "" [] ["A"]) "and").2 =
      emptySystem :=
  claim10_rule_atomicity.1 emptySystem (.mk "" "" [] ["A", "B"]) (.mk "" "" [] ["A"]) "and"
    (by decide)

/-- The BFS loop can never hit the fuel marker at the budget used by
`searchForProof`: each dequeue increments the iteration counter, which the
hard bound check keeps at most `MAX_ITERATIONS`. -/
theorem searchLoop_isFuelOut_false (target : String) (maxDepth : Nat) :
    ∀ fuel queue visited iters, iters ≤ MAX_ITERATIONS → MAX_ITERATIONS + 1 ≤ fuel + iters →
      (searchLoop target maxDepth fuel queue visited iters).isFuelOut = false := by
  intro fuel
  induction fuel with
  | zero => intro queue visited iters h1 h2; omega
  | succ f ih =>
    intro queue visited iters h1 h2
    rcases queue with _ | ⟨⟨system, depth, path⟩, rest⟩
    · simp [searchLoop, SOut.isFuelOut]
    · simp only [searchLoop]
      by_cases hb : MAX_ITERATIONS < iters + 1 ∨
          MAX_QUEUE_SIZE < ((system, depth, path) :: rest).length
      · have hb2 : MAX_ITERATIONS < iters + 1 ∨ MAX_QUEUE_SIZE < rest.length + 1 := by
          simpa using hb
        simp [hb2, SOut.isFuelOut]
      · simp only [if_neg hb]
        have hiter : iters + 1 ≤ MAX_ITERATIONS := by
          rcases not_or.mp hb with ⟨h3, _⟩; omega
        cases hp : isProved system target with
        | error e => simp [SOut.isFuelOut]
        | ok b =>
          cases b with
          | true => simp [SOut.isFuelOut]
          | false =>
            simp only []
            by_cases hd : maxDepth ≤ depth
            · simp only [if_pos hd]
              exact ih rest visited (iters + 1) hiter (by omega)
            · simp only [if_neg hd]
              cases hs : scanChildren target depth path (expandOneLevel system) visited [] with
              | error e => simp [SOut.isFuelOut]
              | ok v =>
                rcases v with r | ⟨visited2, newEntries⟩
                · simp [SOut.isFuelOut]
                · exact ih (rest ++ newEntries) visited2 (iters + 1) hiter (by omega)

/-- C2 (amended): `searchForProof` always terminates within the iteration
bound — for every initial state, target and depth bound it produces an
outcome (a result, or a propagated parse error raised while normalizing a
stored formula), never exhausting the loop budget. -/
theorem claim2_search_never_hangs :
    ∀ sys target maxDepth, (searchForProof sys target maxDepth).isFuelOut = false := by
  intro sys target maxDepth
  unfold searchForProof
  cases hp : isProved sys target with
  | error e => simp [SOut.isFuelOut]
  | ok b =>
    cases b with
    | true => simp [SOut.isFuelOut]
    | false =>
      simp only []
      cases hc : canResolveFormula sys target with
      | error e => simp [SOut.isFuelOut]
      | ok r =>
        by_cases hr : r.canResolve = false
        · simp [hr, SOut.isFuelOut]
        · simp only [if_neg hr]
          exact searchLoop_isFuelOut_false target maxDepth (MAX_ITERATIONS + 2)
            [(sys, 0, [])] [getSystemSignature sys] 0 (by decide) (by omega)

/-- C2 counterexample: a state whose fact set contains the unparseable
string `(` together with the fact `X`.  The target `X` has all its atoms
resolvable, yet `searchForProof` propagates a parse error thrown while
normalizing the stored fact instead of returning a result. -/
theorem claim2_counterexample :
    isAtomResolvable ⟨["(", "X"], [], [], []⟩ "X" = true ∧
    canResolveFormula ⟨["(", "X"], [], [], []⟩ "X" = .ok ⟨true, []⟩ ∧
    searchForProof ⟨["(", "X"], [], [], []⟩ "X" 5 =
      .thrown "Expected identifier or opening paren" ∧
    (searchForProof ⟨["(", "X"], [], [], []⟩ "X" 5).isRes = false :=
  ⟨by decide, by decide, by rfl, by rfl⟩

/-- A result produced by `canResolveFormula` marks resolvability exactly
when the missing list is empty. -/
theorem canResolveFormula_canResolve_isEmpty (sys : System) (t : String) (r : Resolve)
    (h : canResolveFormula sys t = .ok r) : r.canResolve = r.missing.isEmpty := by
  unfold canResolveFormula extractMissingFactsFromFormula at h
  cases hp : parseFormula t with
  | error e => rw [hp] at h; simp [Except.map] at h
  | ok ast =>
    rw [hp] at h
    simp only [Except.map, Except.ok.injEq] at h
    subst h
    rfl

/-- If the child scan reports the target found, the reported result is the
found-at-next-depth record and some scanned child is proved. -/
theorem scanChildren_inl (target : String) (depth : Nat) (path : List String) :
    ∀ children visited acc r,
      scanChildren target depth path children visited acc = .ok (.inl r) →
        r = { emptyResult with
                proven := true, path := path ++ ["final_step"], depth := depth + 1 } ∧
        ∃ c ∈ children, isProved c target = .ok true := by
  intro children
  induction children with
  | nil => intro visited acc r h; simp [scanChildren] at h
  | cons child rest ih =>
    intro visited acc r h
    simp only [scanChildren] at h
    cases hp : isProved child target with
    | error e => simp [hp] at h
    | ok b =>
      cases b with
      | true =>
        simp only [hp, Except.ok.injEq, Sum.inl.injEq] at h
        exact ⟨h.symm, child, List.mem_cons_self child rest, hp⟩
      | false =>
        simp only [hp] at h
        by_cases hv : visited.contains (getSystemSignature child)
        · simp only [if_pos hv] at h
          obtain ⟨hr, c, hc, hcp⟩ := ih _ _ _ h
          exact ⟨hr, c, List.mem_cons_of_mem child hc, hcp⟩
        · simp only [if_neg hv] at h
          obtain ⟨hr, c, hc, hcp⟩ := ih _ _ _ h
          exact ⟨hr, c, List.mem_cons_of_mem child hc, hcp⟩

/-- If the child scan finishes without finding the target, every queued
entry was already queued or wraps one of the scanned children. -/
theorem scanChildren_inr (target : String) (depth : Nat) (path : List String) :
    ∀ children visited acc visited2 q2,
      scanChildren target depth path children visited acc = .ok (.inr (visited2, q2)) →
        ∀ e ∈ q2, e ∈ acc ∨ e.1 ∈ children := by
  intro children
  induction children with
  | nil =>
    intro visited acc visited2 q2 h e he
    simp only [scanChildren, Except.ok.injEq, Sum.inr.injEq] at h
    obtain ⟨-, rfl⟩ := h
    exact .inl he
  | cons child rest ih =>
    intro visited acc visited2 q2 h e he
    simp only [scanChildren] at h
    cases hp : isProved child target with
    | error e2 => simp [hp] at h
    | ok b =>
      cases b with
      | true => simp [hp] at h
      | false =>
        simp only [hp] at h
        by_cases hv : visited.contains (getSystemSignature child)
        · simp only [if_pos hv] at h
          rcases ih _ _ _ _ h e he with h1 | h1
          · exact .inl h1
          · exact .inr (List.mem_cons_of_mem child h1)
        · simp only [if_neg hv] at h
          rcases ih _ _ _ _ h e he with h1 | h1
          · rcases List.mem_append.mp h1 with h2 | h2
            · exact .inl h2
            · simp only [List.mem_singleton] at h2
              subst h2
              exact .inr (List.mem_cons_self child rest)
          · exact .inr (List.mem_cons_of_mem child h1)

/-- Every result the BFS loop returns has an empty `missingFacts` list. -/
theorem searchLoop_missingFacts (target : String) (maxDepth : Nat) :
    ∀ fuel queue visited iters r,
      searchLoop target maxDepth fuel queue visited iters = .res r → r.missingFacts = [] := by
  intro fuel
  induction fuel with
  | zero => intro queue visited iters r h; simp [searchLoop] at h
  | succ f ih =>
    intro queue visited iters r h
    rcases queue with _ | ⟨⟨system, depth, path⟩, rest⟩
    · simp only [searchLoop, SOut.res.injEq] at h
      subst h; rfl
    · simp only [searchLoop] at h
      split at h
      · simp only [SOut.res.injEq] at h
        subst h; rfl
      · cases hp : isProved system target with
        | error e => simp [hp] at h
        | ok b =>
          cases b with
          | true =>
            simp only [hp, SOut.res.injEq] at h
            subst h; rfl
          | false =>
            simp only [hp] at h
            by_cases hd : maxDepth ≤ depth
            · simp only [if_pos hd] at h
              exact ih _ _ _ _ h
            · simp only [if_neg hd] at h
              cases hs : scanChildren target depth path (expandOneLevel system) visited [] with
              | error e => simp [hs] at h
              | ok v =>
                rcases v with r2 | ⟨visited2, newEntries⟩
                · simp only [hs, SOut.res.injEq] at h
                  obtain ⟨hr2, -⟩ := scanChildren_inl target depth path _ _ _ _ hs
                  subst h; rw [hr2]; rfl
                · simp only [hs] at h
                  exact ih _ _ _ _ h

/-- C6: with the target not already proved and some atom unresolvable,
`searchForProof` aborts at once: the result is not-proven with
`missingFacts` the computed list of unresolved base names (nonempty); and a
nonempty `missingFacts` can arise only this way — every searched or
bound-exhausted result carries an empty list. -/
theorem claim6_missing_facts :
    (∀ sys target maxDepth r, isProved sys target = .ok false →
      canResolveFormula sys target = .ok r → r.canResolve = false →
      searchForProof sys target maxDepth = .res { emptyResult with missingFacts := r.missing } ∧
        r.missing ≠ []) ∧
    (∀ sys target maxDepth res, searchForProof sys target maxDepth = .res res →
      res.missingFacts ≠ [] →
      isProved sys target = .ok false ∧
        ∃ r, canResolveFormula sys target = .ok r ∧ r.canResolve = false ∧
          res = { emptyResult with missingFacts := r.missing }) := by
  constructor
  · intro sys target maxDepth r hp hc hcr
    constructor
    · unfold searchForProof
      rw [hp, hc]
      simp [hcr]
    · have h1 := canResolveFormula_canResolve_isEmpty sys target r hc
      rw [hcr] at h1
      intro heq
      rw [heq] at h1
      simp at h1
  · intro sys target maxDepth res h hne
    unfold searchForProof at h
    cases hp : isProved sys target with
    | error e => rw [hp] at h; simp at h
    | ok b =>
      cases b with
      | true =>
        rw [hp] at h
        simp only [SOut.res.injEq] at h
        subst h; simp [emptyResult] at hne
      | false =>
        rw [hp] at h
        cases hc : canResolveFormula sys target with
        | error e => rw [hc] at h; simp at h
        | ok r =>
          rw [hc] at h
          by_cases hcr : r.canResolve = false
          · simp only [if_pos hcr, SOut.res.injEq] at h
            exact ⟨rfl, r, rfl, hcr, h.symm⟩
          · simp only [if_neg hcr] at h
            exact absurd (searchLoop_missingFacts target maxDepth _ _ _ _ _ h) hne

theorem claim6_missing_facts_witness :
    searchForProof ⟨["X"], [], [], []⟩ "Q" 5 =
      .res { emptyResult with missingFacts := ["Q"] } ∧ (["Q"] : List String) ≠ [] :=
  claim6_missing_facts.1 ⟨["X"], [], [], []⟩ "Q" 5 ⟨false, ["Q"]⟩
    (by decide) (by decide) (by decide)

/-- Every queue entry the BFS loop ever holds wraps a state reachable from
the root; a proven result therefore certifies a reachable proved state. -/
theorem searchLoop_sound (target : String) (maxDepth : Nat) (root : System) :
    ∀ fuel queue visited iters r,
      (∀ e ∈ queue, Reach root e.1) →
      searchLoop target maxDepth fuel queue visited iters = .res r → r.proven = true →
      ∃ s2, Reach root s2 ∧ isProved s2 target = .ok true := by
  intro fuel
  induction fuel with
  | zero => intro queue visited iters r hq h; simp [searchLoop] at h
  | succ f ih =>
    intro queue visited iters r hq h hpv
    rcases queue with _ | ⟨⟨system, depth, path⟩, rest⟩
    · simp only [searchLoop, SOut.res.injEq] at h
      subst h; exact absurd hpv (by simp [emptyResult])
    · simp only [searchLoop] at h
      split at h
      · simp only [SOut.res.injEq] at h
        subst h; exact absurd hpv (by simp [emptyResult])
      · cases hp : isProved system target with
        | error e => simp [hp] at h
        | ok b =>
          cases b with
          | true =>
            exact ⟨system, hq _ (List.mem_cons_self _ _), hp⟩
          | false =>
            simp only [hp] at h
            by_cases hd : maxDepth ≤ depth
            · simp only [if_pos hd] at h
              exact ih rest visited (iters + 1) r
                (fun e he => hq e (List.mem_cons_of_mem _ he)) h hpv
            · simp only [if_neg hd] at h
              cases hs : scanChildren target depth path (expandOneLevel system) visited [] with
              | error e => simp [hs] at h
              | ok v =>
                rcases v with r2 | ⟨visited2, newEntries⟩
                · obtain ⟨-, c, hc, hcp⟩ := scanChildren_inl target depth path _ _ _ _ hs
                  exact ⟨c, Relation.ReflTransGen.tail (hq _ (List.mem_cons_self _ _)) hc, hcp⟩
                · simp only [hs] at h
                  refine ih (rest ++ newEntries) visited2 (iters + 1) r ?_ h hpv
                  intro e he
                  rcases List.mem_append.mp he with h1 | h1
                  · exact hq e (List.mem_cons_of_mem _ h1)
                  · rcases scanChildren_inr target depth path _ _ _ _ _ hs e h1 with h2 | h2
                    · simp at h2
                    · exact Relation.ReflTransGen.tail (hq _ (List.mem_cons_self _ _)) h2

/-- C1: the search never produces a false positive: whenever
`searchForProof` returns a result with `proven = true`, the target is
proved (via `isProved`) in the initial state or in some state reachable
from it by rounds of rule expansion.  In particular a bound-exhausted
return, which is the not-proven `emptyResult`, never reports proven. -/
theorem claim1_no_false_positive :
    ∀ sys target maxDepth r, searchForProof sys target maxDepth = .res r → r.proven = true →
      ∃ s2, Reach sys s2 ∧ isProved s2 target = .ok true := by
  intro sys target maxDepth r h hpv
  unfold searchForProof at h
  cases hp : isProved sys target with
  | error e => rw [hp] at h; simp at h
  | ok b =>
    cases b with
    | true => exact ⟨sys, Relation.ReflTransGen.refl, hp⟩
    | false =>
      rw [hp] at h
      cases hc : canResolveFormula sys target with
      | error e => rw [hc] at h; simp at h
      | ok rr =>
        rw [hc] at h
        by_cases hcr : rr.canResolve = false
        · simp only [if_pos hcr, SOut.res.injEq] at h
          subst h; simp [emptyResult] at hpv
        · simp only [if_neg hcr] at h
          refine searchLoop_sound target maxDepth sys _ _ _ _ r ?_ h hpv
          intro e he
          simp only [List.mem_singleton] at he
          subst he
          exact Relation.ReflTransGen.refl

theorem claim1_no_false_positive_witness :
    ∃ s2, Reach ⟨["X"], [], [], []⟩ s2 ∧ isProved s2 "X" = .ok true :=
  claim1_no_false_positive ⟨["X"], [], [], []⟩ "X" 5
    { emptyResult with proven := true } (by rfl) rfl

theorem boundary_head_not_ident {cs : List Char} (hb : Boundary cs) :
    cs.head?.all (fun c => !isIdentChar c) = true := by
  rcases hb with rfl | ⟨cs2, rfl⟩ | ⟨cs2, rfl⟩ <;> simp <;> decide

theorem takeWhile_append_stop {p : Char → Bool} :
    ∀ a b : List Char, (∀ c ∈ a, p c = true) → b.head?.all (fun c => !p c) = true →
      (a ++ b).takeWhile p = a ∧ (a ++ b).dropWhile p = b := by
  intro a
  induction a with
  | nil =>
    intro b ha hb
    cases b with
    | nil => exact ⟨rfl, rfl⟩
    | cons d b2 =>
      have hd : p d = false := by simpa using hb
      constructor <;> simp [List.takeWhile_cons, List.dropWhile_cons, hd]
  | cons c a2 ih =>
    intro b ha hb
    have hc : p c = true := ha c (List.mem_cons_self _ _)
    obtain ⟨h1, h2⟩ := ih b (fun d hd => ha d (List.mem_cons_of_mem _ hd)) hb
    constructor <;> simp [List.takeWhile_cons, List.dropWhile_cons, hc, h1, h2]

theorem startsOp_false_of_goodName {n : String} {cs : List Char}
    (hg : goodNameB n = true) (hb : Boundary cs) :
    startsOperatorB (n.data ++ cs) = false := by
  cases hso : startsOperatorB (n.data ++ cs) with
  | false => rfl
  | true =>
    exfalso
    have hso2 : operatorMappings.any (fun kv => isPrefixOfChars kv.1.data (n.data ++ cs)) = true :=
      hso
    obtain ⟨kv, hkv, hpre⟩ := List.any_eq_true.mp hso2
    rw [isPrefixOfChars_eq] at hpre
    have hpre2 : kv.1.data <+: n.data ++ cs := List.isPrefixOf_iff_prefix.mp hpre
    have hgood : ∀ kv2 ∈ operatorMappings, ¬(isPrefixOfChars kv2.1.data n.data = true) := by
      have hg2 : operatorMappings.all (fun kv => !isPrefixOfChars kv.1.data n.data) = true := by
        have := hg
        simp only [goodNameB, Bool.and_eq_true] at this
        exact this.2
      intro kv2 hkv2 hcon
      have := (List.all_eq_true.mp hg2) kv2 hkv2
      rw [hcon] at this
      simp at this
    by_cases hlen : kv.1.data.length ≤ n.data.length
    · have hkn : kv.1.data <+: n.data :=
        List.prefix_of_prefix_length_le hpre2 (List.prefix_append _ _) hlen
      exact hgood kv hkv (by rw [isPrefixOfChars_eq]; exact List.isPrefixOf_iff_prefix.mpr hkn)
    · push_neg at hlen
      have hnk : n.data <+: kv.1.data :=
        List.prefix_of_prefix_length_le (List.prefix_append _ _) hpre2 (Nat.le_of_lt hlen)
      obtain ⟨k2, hk2⟩ := hnk
      obtain ⟨t, ht⟩ := hpre2
      have hcs : cs = k2 ++ t := by
        have h5 : n.data ++ (k2 ++ t) = n.data ++ cs := by
          rw [← List.append_assoc, hk2, ht]
        exact (List.append_cancel_left h5).symm
      have hk2ne : k2 ≠ [] := by
        intro h0
        rw [h0, List.append_nil] at hk2
        rw [← hk2] at hlen
        omega
      cases hk2e : k2 with
      | nil => exact hk2ne hk2e
      | cons d k3 =>
        have hdmem : d ∈ kv.1.data := by
          rw [← hk2, hk2e]
          exact List.mem_append_right _ (List.mem_cons_self _ _)
        have hchars : ∀ kv2 ∈ operatorMappings, ∀ ch ∈ kv2.1.data, ¬ch = ' ' ∧ ¬ch = ')' := by
          decide
        obtain ⟨hd1, hd2⟩ := hchars kv hkv d hdmem
        rw [hk2e] at hcs
        rcases hb with rfl | ⟨cs2, hcse⟩ | ⟨cs2, hcse⟩
        · simp at hcs
        · rw [hcse] at hcs
          injection hcs with h9
          exact hd1 h9.symm
        · rw [hcse] at hcs
          injection hcs with h9
          exact hd2 h9.symm

theorem except_map_append (x : Except LexErr (List Tok)) (u v : List Tok) :
    (x.map (v ++ ·)).map (u ++ ·) = x.map ((u ++ v) ++ ·) := by
  cases x <;> simp [Except.map, List.append_assoc]

theorem except_map_cons_append (x : Except LexErr (List Tok)) (t : Tok) (v : List Tok) :
    (x.map (v ++ ·)).map (t :: ·) = x.map ((t :: v) ++ ·) := by
  cases x <;> simp [Except.map, List.append_assoc]

theorem except_map_cons_inner (x : Except LexErr (List Tok)) (u : List Tok) (t : Tok) :
    (x.map (t :: ·)).map (u ++ ·) = x.map ((u ++ [t]) ++ ·) := by
  cases x <;> simp [Except.map, List.append_assoc]

theorem lex_ws_step (Z : List Char) (p g : Nat) :
    lexRun (g + 1) (' ' :: Z) p = lexRun g Z (p + 1) := rfl

theorem lex_lparen_step (Z : List Char) (p g : Nat) :
    lexRun (g + 1) ('(' :: Z) p = (lexRun g Z (p + 1)).map (⟨.LPAREN, some "(", p⟩ :: ·) := rfl

theorem lex_rparen_step (Z : List Char) (p g : Nat) :
    lexRun (g + 1) (')' :: Z) p = (lexRun g Z (p + 1)).map (⟨.RPAREN, some ")", p⟩ :: ·) := rfl

theorem lex_tilde_step (Z : List Char) (p g : Nat) :
    lexRun (g + 1) ('~' :: Z) p = (lexRun g Z (p + 1)).map (⟨.OPERATOR, some "not", p⟩ :: ·) := rfl

theorem lex_sym_step (op : Operator) (hop : ¬op = .not) (Z : List Char) (p g : Nat) :
    lexRun (g + 1) ((opSymbol op).data ++ Z) p =
      (lexRun g Z (p + 1)).map (⟨.OPERATOR, some (opName op), p⟩ :: ·) := by
  cases op with
  | not => exact absurd rfl hop
  | and => rfl
  | or => rfl
  | implies => rfl
  | iff => rfl

theorem opSymbol_data_length (op : Operator) (hop : ¬op = .not) :
    (opSymbol op).data.length = 1 := by
  cases op with
  | not => exact absurd rfl hop
  | and => rfl
  | or => rfl
  | implies => rfl
  | iff => rfl

/-- Lexing a well-formed rendered formula followed by a boundary suffix
produces exactly the expected token stream and resumes on the suffix. -/
theorem lex_render : ∀ a : AST, GoodB a = true →
    ∀ cs pos fuel, Boundary cs → (renderChars a ++ cs).length < fuel →
    ∃ toks fuel2 pos2, cs.length < fuel2 ∧
      lexRun fuel (renderChars a ++ cs) pos = (lexRun fuel2 cs pos2).map (toks ++ ·) ∧
      toks.map eraseTok = etok a := by
  intro a
  induction a with
  | atom n =>
    intro hg cs pos fuel hb hf
    have hg2 : goodNameB n = true := hg
    have hpat : atomNamePattern n = true := by
      have := hg2
      simp only [goodNameB, Bool.and_eq_true] at this
      exact this.1
    cases hn : n.data with
    | nil => rw [atomNamePattern, hn] at hpat; exact absurd hpat (by decide)
    | cons c0 ns =>
      have hpat2 : isIdentStart c0 = true ∧ ns.all isIdentChar = true := by
        rw [atomNamePattern, hn] at hpat
        simpa using hpat
      have hallc : ∀ d ∈ c0 :: ns, isIdentChar d = true := by
        intro d hd
        rcases List.mem_cons.mp hd with rfl | hd2
        · exact identStart_isIdentChar hpat2.1
        · exact (List.all_eq_true.mp hpat2.2) d hd2
      have h1 : c0.isWhitespace = false := identChar_not_ws (hallc c0 (List.mem_cons_self _ _))
      have h2 : ¬(c0 = '(') := fun hcc => by
        rw [hcc] at hpat2; exact absurd hpat2.1 (by decide)
      have h3 : ¬(c0 = ')') := fun hcc => by
        rw [hcc] at hpat2; exact absurd hpat2.1 (by decide)
      have hso : startsOperatorB (c0 :: (ns ++ cs)) = false := by
        have := startsOp_false_of_goodName hg2 hb
        rwa [hn, List.cons_append] at this
      obtain ⟨htw, hdw⟩ := takeWhile_append_stop (c0 :: ns) cs hallc (boundary_head_not_ident hb)
      obtain ⟨f, rfl⟩ : ∃ f, fuel = f + 1 := ⟨fuel - 1, by omega⟩
      rw [renderChars_atom, hn]
      refine ⟨[⟨.IDENTIFIER, some n, pos⟩], f, pos + (c0 :: ns).length, ?_, ?_, ?_⟩
      · rw [renderChars_atom, hn] at hf
        simp only [List.cons_append, List.length_cons, List.length_append] at hf
        omega
      · rw [List.cons_append]
        simp only [lexRun, h1, h2, h3, hso, hpat2.1, Bool.false_eq_true, if_false, if_true]
        rw [← List.cons_append, htw, hdw]
        have hmk : String.mk (c0 :: ns) = n := by rw [← hn]
        rw [hmk]
        rfl
      · rfl
  | unary op x ih =>
    intro hg cs pos fuel hb hf
    have hg2 : op = .not ∧ GoodB x = true := by
      have := hg
      rw [GoodB] at this
      simp only [Bool.and_eq_true, decide_eq_true_eq] at this
      exact this
    obtain ⟨rfl, hgx⟩ := hg2
    rw [renderChars_unary] at hf ⊢
    obtain ⟨f, rfl⟩ : ∃ f, fuel = f + 1 := ⟨fuel - 1, by omega⟩
    have hf2 : (renderChars x ++ cs).length < f := by
      rw [List.cons_append, List.length_cons] at hf
      omega
    obtain ⟨toks, fuel2, pos2, hlt, heq, herase⟩ := ih hgx cs (pos + 1) f hb hf2
    refine ⟨⟨.OPERATOR, some "not", pos⟩ :: toks, fuel2, pos2, hlt, ?_, ?_⟩
    · rw [List.cons_append, lex_tilde_step, heq, except_map_cons_append]
    · simp [etok, herase, eraseTok]
  | binary op l r ihl ihr =>
    intro hg cs pos fuel hb hf
    have hg2 : ¬op = .not ∧ GoodB l = true ∧ GoodB r = true := by
      have h0 := hg
      rw [GoodB] at h0
      simp only [Bool.and_eq_true, decide_eq_true_eq] at h0
      exact ⟨h0.1.1, h0.1.2, h0.2⟩
    obtain ⟨hop, hgl, hgr⟩ := hg2
    have hsl : (opSymbol op).data.length = 1 := opSymbol_data_length op hop
    rw [renderChars_binary] at hf ⊢
    simp only [List.cons_append, List.append_assoc, List.singleton_append] at hf ⊢
    simp only [List.length_cons, List.length_append] at hf
    obtain ⟨f, rfl⟩ : ∃ f, fuel = f + 1 := ⟨fuel - 1, by omega⟩
    have hf1 : (renderChars l ++
        ' ' :: ((opSymbol op).data ++ ' ' :: (renderChars r ++ ')' :: cs))).length < f := by
      simp only [List.length_cons, List.length_append]
      omega
    obtain ⟨toksl, f2, p2, hlt2, heq2, herasel⟩ :=
      ihl hgl (' ' :: ((opSymbol op).data ++ ' ' :: (renderChars r ++ ')' :: cs))) (pos + 1) f
        (Or.inr (Or.inl ⟨_, rfl⟩)) hf1
    simp only [List.length_cons, List.length_append, hsl] at hlt2
    obtain ⟨g2, rfl⟩ : ∃ g, f2 = g + 1 := ⟨f2 - 1, by omega⟩
    obtain ⟨g3, rfl⟩ : ∃ g, g2 = g + 1 := ⟨g2 - 1, by omega⟩
    obtain ⟨g4, rfl⟩ : ∃ g, g3 = g + 1 := ⟨g3 - 1, by omega⟩
    have hf2 : (renderChars r ++ ')' :: cs).length < g4 := by
      simp only [List.length_cons, List.length_append]
      omega
    obtain ⟨toksr, f3, p3, hlt3, heq3, heraser⟩ :=
      ihr hgr (')' :: cs) (p2 + 1 + 1 + 1) g4 (Or.inr (Or.inr ⟨_, rfl⟩)) hf2
    simp only [List.length_cons] at hlt3
    obtain ⟨g5, rfl⟩ : ∃ g, f3 = g + 1 := ⟨f3 - 1, by omega⟩
    refine ⟨(((⟨.LPAREN, some "(", pos⟩ :: toksl) ++ [⟨.OPERATOR, some (opName op), p2 + 1⟩]) ++
        toksr) ++ [⟨.RPAREN, some ")", p3⟩], g5, p3 + 1, by omega, ?_, ?_⟩
    · calc lexRun (f + 1)
            ('(' :: (renderChars l ++
              ' ' :: ((opSymbol op).data ++ ' ' :: (renderChars r ++ ')' :: cs)))) pos
          = (lexRun f (renderChars l ++
              ' ' :: ((opSymbol op).data ++ ' ' :: (renderChars r ++ ')' :: cs)))
              (pos + 1)).map (⟨.LPAREN, some "(", pos⟩ :: ·) := lex_lparen_step _ _ _
        _ = ((lexRun (g4 + 1 + 1 + 1)
              (' ' :: ((opSymbol op).data ++ ' ' :: (renderChars r ++ ')' :: cs))) p2).map
              (toksl ++ ·)).map (⟨.LPAREN, some "(", pos⟩ :: ·) := by rw [heq2]
        _ = (lexRun (g4 + 1 + 1 + 1)
              (' ' :: ((opSymbol op).data ++ ' ' :: (renderChars r ++ ')' :: cs))) p2).map
              ((⟨.LPAREN, some "(", pos⟩ :: toksl) ++ ·) := except_map_cons_append _ _ _
        _ = (lexRun (g4 + 1 + 1)
              ((opSymbol op).data ++ ' ' :: (renderChars r ++ ')' :: cs)) (p2 + 1)).map
              ((⟨.LPAREN, some "(", pos⟩ :: toksl) ++ ·) := by rw [lex_ws_step]
        _ = ((lexRun (g4 + 1) (' ' :: (renderChars r ++ ')' :: cs)) (p2 + 1 + 1)).map
              (⟨.OPERATOR, some (opName op), p2 + 1⟩ :: ·)).map
              ((⟨.LPAREN, some "(", pos⟩ :: toksl) ++ ·) := by rw [lex_sym_step op hop]
        _ = (lexRun (g4 + 1) (' ' :: (renderChars r ++ ')' :: cs)) (p2 + 1 + 1)).map
              (((⟨.LPAREN, some "(", pos⟩ :: toksl) ++
                [⟨.OPERATOR, some (opName op), p2 + 1⟩]) ++ ·) := except_map_cons_inner _ _ _
        _ = (lexRun g4 (renderChars r ++ ')' :: cs) (p2 + 1 + 1 + 1)).map
              (((⟨.LPAREN, some "(", pos⟩ :: toksl) ++
                [⟨.OPERATOR, some (opName op), p2 + 1⟩]) ++ ·) := by rw [lex_ws_step]
        _ = ((lexRun (g5 + 1) (')' :: cs) p3).map (toksr ++ ·)).map
              (((⟨.LPAREN, some "(", pos⟩ :: toksl) ++
                [⟨.OPERATOR, some (opName op), p2 + 1⟩]) ++ ·) := by rw [heq3]
        _ = (lexRun (g5 + 1) (')' :: cs) p3).map
              ((((⟨.LPAREN, some "(", pos⟩ :: toksl) ++
                [⟨.OPERATOR, some (opName op), p2 + 1⟩]) ++ toksr) ++ ·) :=
              except_map_append _ _ _
        _ = ((lexRun g5 cs (p3 + 1)).map (⟨.RPAREN, some ")", p3⟩ :: ·)).map
              ((((⟨.LPAREN, some "(", pos⟩ :: toksl) ++
                [⟨.OPERATOR, some (opName op), p2 + 1⟩]) ++ toksr) ++ ·) := by
              rw [lex_rparen_step]
        _ = (lexRun g5 cs (p3 + 1)).map
              (((((⟨.LPAREN, some "(", pos⟩ :: toksl) ++
                [⟨.OPERATOR, some (opName op), p2 + 1⟩]) ++ toksr) ++
                [⟨.RPAREN, some ")", p3⟩]) ++ ·) := except_map_cons_inner _ _ _
    · simp [etok, List.map_append, herasel, heraser, eraseTok, List.append_assoc]

theorem etok_length_pos (a : AST) : 1 ≤ (etok a).length := by
  cases a <;> simp [etok]

/-! Composition lemmas for evaluating the parser on rendered token
streams.  The fuel of every inner call is kept a bare variable (step lemmas
are stated at `f + 1`) so that unfolding exposes exactly one level. -/

theorem parseL_conj_step (f : Nat) (d : AST) (ts : List ETok) :
    parseL (f + 1) .conj d ts =
      match parseL f .neg d ts with
      | .error e => .error e
      | .ok (l, ts1) => parseL f .conjT l ts1 := rfl

theorem parseL_disj_step (f : Nat) (d : AST) (ts : List ETok) :
    parseL (f + 1) .disj d ts =
      match parseL f .conj d ts with
      | .error e => .error e
      | .ok (l, ts1) => parseL f .disjT l ts1 := rfl

theorem parseL_equiv_step (f : Nat) (d : AST) (ts : List ETok) :
    parseL (f + 1) .equiv d ts =
      match parseL f .impl d ts with
      | .error e => .error e
      | .ok (l, ts1) => parseL f .equivT l ts1 := rfl

theorem parseL_impl_step (f : Nat) (d : AST) (ts : List ETok) :
    parseL (f + 1) .impl d ts =
      match parseL f .disj d ts with
      | .error e => .error e
      | .ok (l, ts1) =>
        match ts1 with
        | [] => .ok (l, [])
        | t :: rest =>
          if isOpTok t "implies" then
            match parseL f .impl d rest with
            | .error e => .error e
            | .ok (r, ts2) => .ok (.binary .implies l r, ts2)
          else .ok (l, t :: rest) := rfl

theorem parseL_conjT_cons_and (f : Nat) (A : AST) (Z : List ETok) :
    parseL (f + 1) .conjT A (⟨.OPERATOR, some "and"⟩ :: Z) =
      match parseL f .neg A Z with
      | .error e => .error e
      | .ok (r, ts1) => parseL f .conjT (.binary .and A r) ts1 := rfl

theorem parseL_disjT_cons_or (f : Nat) (A : AST) (Z : List ETok) :
    parseL (f + 1) .disjT A (⟨.OPERATOR, some "or"⟩ :: Z) =
      match parseL f .conj A Z with
      | .error e => .error e
      | .ok (r, ts1) => parseL f .disjT (.binary .or A r) ts1 := rfl

theorem parseL_equivT_cons_iff (f : Nat) (A : AST) (Z : List ETok) :
    parseL (f + 1) .equivT A (⟨.OPERATOR, some "iff"⟩ :: Z) =
      match parseL f .impl A Z with
      | .error e => .error e
      | .ok (r, ts1) => parseL f .equivT (.binary .iff A r) ts1 := rfl

theorem parseL_neg_atom (f : Nat) (d : AST) (n : String) (rest : List ETok) :
    parseL (f + 1 + 1) .neg d (⟨.IDENTIFIER, some n⟩ :: rest) = .ok (.atom n, rest) := rfl

theorem parseL_neg_not {f : Nat} {d x : AST} {ts rest : List ETok}
    (h : parseL f .neg d ts = .ok (x, rest)) :
    parseL (f + 1) .neg d (⟨.OPERATOR, some "not"⟩ :: ts) = .ok (negate x, rest) := by
  have h1 : parseL (f + 1) .neg d (⟨.OPERATOR, some "not"⟩ :: ts) =
      match parseL f .neg d ts with
      | .error e => .error e
      | .ok (x, ts1) => .ok (negate x, ts1) := rfl
  rw [h1, h]

theorem parseL_neg_paren {f : Nat} {d A : AST} {T rest2 : List ETok} {t2 : ETok}
    (h : parseL f .equiv d T = .ok (A, t2 :: rest2)) (h2 : t2.type = .RPAREN) :
    parseL (f + 1 + 1) .neg d (⟨.LPAREN, some "("⟩ :: T) = .ok (A, rest2) := by
  have h1 : parseL (f + 1 + 1) .neg d (⟨.LPAREN, some "("⟩ :: T) =
      match parseL f .equiv d T with
      | .error e => .error e
      | .ok (inner, ts1) =>
        match ts1 with
        | [] => .error "Expected closing paren after expression"
        | t2 :: rest2 =>
          if t2.type = .RPAREN then .ok (inner, rest2)
          else .error "Expected closing paren after expression" := rfl
  rw [h1, h]
  simp [h2]

theorem notHeadOp_cons {t : ETok} {Z : List ETok} {name : String}
    (h : isOpTok t name = false) : notHeadOp (t :: Z) name = true := by
  simp [notHeadOp, h]

theorem parseL_conjT_stop {f : Nat} {d : AST} {ts : List ETok}
    (h : notHeadOp ts "and" = true) : parseL (f + 1) .conjT d ts = .ok (d, ts) := by
  cases ts with
  | nil => rfl
  | cons t r2 =>
    have ht : isOpTok t "and" = false := by simpa [notHeadOp] using h
    simp [parseL, ht]

theorem parseL_disjT_stop {f : Nat} {d : AST} {ts : List ETok}
    (h : notHeadOp ts "or" = true) : parseL (f + 1) .disjT d ts = .ok (d, ts) := by
  cases ts with
  | nil => rfl
  | cons t r2 =>
    have ht : isOpTok t "or" = false := by simpa [notHeadOp] using h
    simp [parseL, ht]

theorem parseL_equivT_stop {f : Nat} {d : AST} {ts : List ETok}
    (h : notHeadOp ts "iff" = true) : parseL (f + 1) .equivT d ts = .ok (d, ts) := by
  cases ts with
  | nil => rfl
  | cons t r2 =>
    have ht : isOpTok t "iff" = false := by simpa [notHeadOp] using h
    simp [parseL, ht]

theorem parseL_conj_of_neg {f : Nat} {d a : AST} {ts rest : List ETok}
    (hneg : parseL (f + 1) .neg d ts = .ok (a, rest)) (hstop : notHeadOp rest "and" = true) :
    parseL (f + 1 + 1) .conj d ts = .ok (a, rest) := by
  rw [parseL_conj_step, hneg]
  exact parseL_conjT_stop hstop

theorem parseL_disj_of_conj {f : Nat} {d a : AST} {ts rest : List ETok}
    (hconj : parseL (f + 1) .conj d ts = .ok (a, rest)) (hstop : notHeadOp rest "or" = true) :
    parseL (f + 1 + 1) .disj d ts = .ok (a, rest) := by
  rw [parseL_disj_step, hconj]
  exact parseL_disjT_stop hstop

theorem parseL_equiv_of_impl {f : Nat} {d a : AST} {ts rest : List ETok}
    (himpl : parseL (f + 1) .impl d ts = .ok (a, rest)) (hstop : notHeadOp rest "iff" = true) :
    parseL (f + 1 + 1) .equiv d ts = .ok (a, rest) := by
  rw [parseL_equiv_step, himpl]
  exact parseL_equivT_stop hstop

theorem parseL_impl_of_disj {f : Nat} {d a : AST} {ts rest : List ETok}
    (hdisj : parseL f .disj d ts = .ok (a, rest)) (hstop : notHeadOp rest "implies" = true) :
    parseL (f + 1) .impl d ts = .ok (a, rest) := by
  rw [parseL_impl_step, hdisj]
  cases rest with
  | nil => rfl
  | cons t r2 =>
    have ht : isOpTok t "implies" = false := by simpa [notHeadOp] using hstop
    simp [ht]

theorem parseL_impl_implies {f : Nat} {d l r : AST} {ts Z ts2 : List ETok}
    (hdisj : parseL f .disj d ts = .ok (l, (⟨.OPERATOR, some "implies"⟩ : ETok) :: Z))
    (himpl : parseL f .impl d Z = .ok (r, ts2)) :
    parseL (f + 1) .impl d ts = .ok (.binary .implies l r, ts2) := by
  rw [parseL_impl_step, hdisj]
  have hop : isOpTok (⟨.OPERATOR, some "implies"⟩ : ETok) "implies" = true := by decide
  simp [hop, himpl]

theorem parseL_conjT_and {f : Nat} {A r : AST} {Z ts1 : List ETok}
    (hneg : parseL f .neg A Z = .ok (r, ts1)) :
    parseL (f + 1) .conjT A (⟨.OPERATOR, some "and"⟩ :: Z) =
      parseL f .conjT (.binary .and A r) ts1 := by
  rw [parseL_conjT_cons_and, hneg]

theorem parseL_disjT_or {f : Nat} {A r : AST} {Z ts1 : List ETok}
    (hconj : parseL f .conj A Z = .ok (r, ts1)) :
    parseL (f + 1) .disjT A (⟨.OPERATOR, some "or"⟩ :: Z) =
      parseL f .disjT (.binary .or A r) ts1 := by
  rw [parseL_disjT_cons_or, hconj]

theorem parseL_equivT_iff {f : Nat} {A r : AST} {Z ts1 : List ETok}
    (himpl : parseL f .impl A Z = .ok (r, ts1)) :
    parseL (f + 1) .equivT A (⟨.OPERATOR, some "iff"⟩ :: Z) =
      parseL f .equivT (.binary .iff A r) ts1 := by
  rw [parseL_equivT_cons_iff, himpl]

theorem parseL_conj_and {f : Nat} {d l r : AST} {ts Z ts1 : List ETok}
    (hnl : parseL (f + 1 + 1) .neg d ts = .ok (l, ⟨.OPERATOR, some "and"⟩ :: Z))
    (hnr : parseL (f + 1) .neg l Z = .ok (r, ts1))
    (hstop : notHeadOp ts1 "and" = true) :
    parseL (f + 1 + 1 + 1) .conj d ts = .ok (.binary .and l r, ts1) := by
  rw [parseL_conj_step, hnl]
  show parseL (f + 1 + 1) .conjT l (⟨.OPERATOR, some "and"⟩ :: Z) = _
  rw [parseL_conjT_and hnr]
  exact parseL_conjT_stop hstop

theorem parseL_disj_or {f : Nat} {d l r : AST} {ts Z ts1 : List ETok}
    (hconjl : parseL (f + 1 + 1 + 1) .conj d ts = .ok (l, ⟨.OPERATOR, some "or"⟩ :: Z))
    (hconjr : parseL (f + 1 + 1) .conj l Z = .ok (r, ts1))
    (hstop : notHeadOp ts1 "or" = true) :
    parseL (f + 1 + 1 + 1 + 1) .disj d ts = .ok (.binary .or l r, ts1) := by
  rw [parseL_disj_step, hconjl]
  show parseL (f + 1 + 1 + 1) .disjT l (⟨.OPERATOR, some "or"⟩ :: Z) = _
  rw [parseL_disjT_or hconjr]
  exact parseL_disjT_stop hstop

theorem parseL_equiv_iff {g : Nat} {d l r : AST} {ts Z ts1 : List ETok}
    (himpll : parseL (g + 1 + 1) .impl d ts = .ok (l, ⟨.OPERATOR, some "iff"⟩ :: Z))
    (himplr : parseL (g + 1) .impl l Z = .ok (r, ts1))
    (hstop : notHeadOp ts1 "iff" = true) :
    parseL (g + 1 + 1 + 1) .equiv d ts = .ok (.binary .iff l r, ts1) := by
  rw [parseL_equiv_step, himpll]
  show parseL (g + 1 + 1) .equivT l (⟨.OPERATOR, some "iff"⟩ :: Z) = _
  rw [parseL_equivT_iff himplr]
  exact parseL_equivT_stop hstop

theorem parse_etok_neg : ∀ a : AST, GoodB a = true → ∀ d : AST, ∀ rest : List ETok, ∀ fuel : Nat,
    9 * (etok a).length + 1 ≤ fuel →
    parseL fuel .neg d (etok a ++ rest) = .ok (a, rest) := by
  intro a
  induction a with
  | atom n =>
    intro _ d rest fuel hf
    have hlen : (etok (AST.atom n)).length = 1 := rfl
    rw [hlen] at hf
    obtain ⟨f, rfl⟩ : ∃ f, fuel = f + 1 + 1 := ⟨fuel - 2, by omega⟩
    exact parseL_neg_atom f d n rest
  | unary op x ih =>
    intro hg d rest fuel hf
    have hg2 : (decide (op = Operator.not) && GoodB x) = true := hg
    simp only [Bool.and_eq_true, decide_eq_true_eq] at hg2
    obtain ⟨rfl, hgx⟩ := hg2
    have hlen : (etok (AST.unary Operator.not x)).length = (etok x).length + 1 := by
      simp [etok]
    rw [hlen] at hf
    obtain ⟨f, rfl⟩ : ∃ f, fuel = f + 1 := ⟨fuel - 1, by omega⟩
    have hx : parseL f .neg d (etok x ++ rest) = .ok (x, rest) :=
      ih hgx d rest f (by omega)
    show parseL (f + 1) .neg d ((⟨.OPERATOR, some "not"⟩ :: etok x) ++ rest) = _
    rw [List.cons_append]
    simpa [negate] using parseL_neg_not hx
  | binary op l r ihl ihr =>
    intro hg d rest fuel hf
    have hg2 : (decide (¬op = Operator.not) && GoodB l && GoodB r) = true := hg
    simp only [Bool.and_eq_true, decide_eq_true_eq] at hg2
    obtain ⟨⟨hop, hgl⟩, hgr⟩ := hg2
    have hlen : (etok (AST.binary op l r)).length = (etok l).length + (etok r).length + 3 := by
      simp [etok]
      omega
    rw [hlen] at hf
    obtain ⟨f, rfl⟩ : ∃ f, fuel = f + 1 + 1 + 1 + 1 + 1 + 1 + 1 + 1 := ⟨fuel - 8, by omega⟩
    show parseL _ .neg d
        ((⟨.LPAREN, some "("⟩ ::
          (etok l ++ ⟨.OPERATOR, some (opName op)⟩ :: (etok r ++ [⟨.RPAREN, some ")"⟩]))) ++ rest) = _
    simp only [List.cons_append, List.append_assoc, List.singleton_append]
    cases op with
    | not => exact absurd rfl hop
    | and =>
      simp only [opName]
      have hnl : parseL (f + 1 + 1) .neg d
          (etok l ++ (⟨.OPERATOR, some "and"⟩ :: (etok r ++ ⟨.RPAREN, some ")"⟩ :: rest))) =
          .ok (l, ⟨.OPERATOR, some "and"⟩ :: (etok r ++ ⟨.RPAREN, some ")"⟩ :: rest)) :=
        ihl hgl d _ _ (by omega)
      have hnr : parseL (f + 1) .neg l (etok r ++ ⟨.RPAREN, some ")"⟩ :: rest) =
          .ok (r, ⟨.RPAREN, some ")"⟩ :: rest) :=
        ihr hgr l _ _ (by omega)
      have hconj := parseL_conj_and hnl hnr (notHeadOp_cons (by decide))
      have hdisj := parseL_disj_of_conj hconj (notHeadOp_cons (by decide))
      have himpl := parseL_impl_of_disj hdisj (notHeadOp_cons (by decide))
      have hequiv := parseL_equiv_of_impl himpl (notHeadOp_cons (by decide))
      exact parseL_neg_paren hequiv rfl
    | or =>
      simp only [opName]
      have hnl : parseL (f + 1 + 1) .neg d
          (etok l ++ (⟨.OPERATOR, some "or"⟩ :: (etok r ++ ⟨.RPAREN, some ")"⟩ :: rest))) =
          .ok (l, ⟨.OPERATOR, some "or"⟩ :: (etok r ++ ⟨.RPAREN, some ")"⟩ :: rest)) :=
        ihl hgl d _ _ (by omega)
      have hnr : parseL (f + 1) .neg l (etok r ++ ⟨.RPAREN, some ")"⟩ :: rest) =
          .ok (r, ⟨.RPAREN, some ")"⟩ :: rest) :=
        ihr hgr l _ _ (by omega)
      have hconjl := parseL_conj_of_neg hnl (notHeadOp_cons (by decide))
      have hconjr := parseL_conj_of_neg hnr (notHeadOp_cons (by decide))
      have hdisj := parseL_disj_or hconjl hconjr (notHeadOp_cons (by decide))
      have himpl := parseL_impl_of_disj hdisj (notHeadOp_cons (by decide))
      have hequiv := parseL_equiv_of_impl himpl (notHeadOp_cons (by decide))
      exact parseL_neg_paren hequiv rfl
    | implies =>
      simp only [opName]
      have hnl : parseL (f + 1 + 1) .neg d
          (etok l ++ (⟨.OPERATOR, some "implies"⟩ :: (etok r ++ ⟨.RPAREN, some ")"⟩ :: rest))) =
          .ok (l, ⟨.OPERATOR, some "implies"⟩ :: (etok r ++ ⟨.RPAREN, some ")"⟩ :: rest)) :=
        ihl hgl d _ _ (by omega)
      have hnr : parseL (f + 1) .neg d (etok r ++ ⟨.RPAREN, some ")"⟩ :: rest) =
          .ok (r, ⟨.RPAREN, some ")"⟩ :: rest) :=
        ihr hgr d _ _ (by omega)
      have hconjl := parseL_conj_of_neg hnl (notHeadOp_cons (by decide))
      have hdisjl := parseL_disj_of_conj hconjl (notHeadOp_cons (by decide))
      have hconjr := parseL_conj_of_neg hnr (notHeadOp_cons (by decide))
      have hdisjr := parseL_disj_of_conj hconjr (notHeadOp_cons (by decide))
      have himplr := parseL_impl_of_disj hdisjr (notHeadOp_cons (by decide))
      have himpl := parseL_impl_implies hdisjl himplr
      have hequiv := parseL_equiv_of_impl himpl (notHeadOp_cons (by decide))
      exact parseL_neg_paren hequiv rfl
    | iff =>
      simp only [opName]
      have hnl : parseL (f + 1 + 1) .neg d
          (etok l ++ (⟨.OPERATOR, some "iff"⟩ :: (etok r ++ ⟨.RPAREN, some ")"⟩ :: rest))) =
          .ok (l, ⟨.OPERATOR, some "iff"⟩ :: (etok r ++ ⟨.RPAREN, some ")"⟩ :: rest)) :=
        ihl hgl d _ _ (by omega)
      have hnr : parseL (f + 1) .neg l (etok r ++ ⟨.RPAREN, some ")"⟩ :: rest) =
          .ok (r, ⟨.RPAREN, some ")"⟩ :: rest) :=
        ihr hgr l _ _ (by omega)
      have hconjl := parseL_conj_of_neg hnl (notHeadOp_cons (by decide))
      have hdisjl := parseL_disj_of_conj hconjl (notHeadOp_cons (by decide))
      have himpll := parseL_impl_of_disj hdisjl (notHeadOp_cons (by decide))
      have hconjr := parseL_conj_of_neg hnr (notHeadOp_cons (by decide))
      have hdisjr := parseL_disj_of_conj hconjr (notHeadOp_cons (by decide))
      have himplr := parseL_impl_of_disj hdisjr (notHeadOp_cons (by decide))
      have hequiv := parseL_equiv_iff himpll himplr (notHeadOp_cons (by decide))
      exact parseL_neg_paren hequiv rfl

theorem parse_etok_conj (a : AST) (hg : GoodB a = true) (d : AST) (rest : List ETok) (fuel : Nat)
    (hf : 9 * (etok a).length + 3 ≤ fuel) (h1 : notHeadOp rest "and" = true) :
    parseL fuel .conj d (etok a ++ rest) = .ok (a, rest) := by
  obtain ⟨f, rfl⟩ : ∃ f, fuel = f + 1 + 1 := ⟨fuel - 2, by omega⟩
  exact parseL_conj_of_neg (parse_etok_neg a hg d rest (f + 1) (by omega)) h1

theorem parse_etok_disj (a : AST) (hg : GoodB a = true) (d : AST) (rest : List ETok) (fuel : Nat)
    (hf : 9 * (etok a).length + 5 ≤ fuel) (h1 : notHeadOp rest "and" = true)
    (h2 : notHeadOp rest "or" = true) :
    parseL fuel .disj d (etok a ++ rest) = .ok (a, rest) := by
  obtain ⟨f, rfl⟩ : ∃ f, fuel = f + 1 + 1 := ⟨fuel - 2, by omega⟩
  exact parseL_disj_of_conj (parse_etok_conj a hg d rest (f + 1) (by omega) h1) h2

theorem parse_etok_impl (a : AST) (hg : GoodB a = true) (d : AST) (rest : List ETok) (fuel : Nat)
    (hf : 9 * (etok a).length + 7 ≤ fuel) (h1 : notHeadOp rest "and" = true)
    (h2 : notHeadOp rest "or" = true) (h3 : notHeadOp rest "implies" = true) :
    parseL fuel .impl d (etok a ++ rest) = .ok (a, rest) := by
  obtain ⟨f, rfl⟩ : ∃ f, fuel = f + 1 := ⟨fuel - 1, by omega⟩
  exact parseL_impl_of_disj (parse_etok_disj a hg d rest f (by omega) h1 h2) h3

theorem parse_etok_equiv (a : AST) (hg : GoodB a = true) (d : AST) (rest : List ETok) (fuel : Nat)
    (hf : 9 * (etok a).length + 9 ≤ fuel) (h1 : notHeadOp rest "and" = true)
    (h2 : notHeadOp rest "or" = true) (h3 : notHeadOp rest "implies" = true)
    (h4 : notHeadOp rest "iff" = true) :
    parseL fuel .equiv d (etok a ++ rest) = .ok (a, rest) := by
  obtain ⟨f, rfl⟩ : ∃ f, fuel = f + 1 + 1 := ⟨fuel - 2, by omega⟩
  exact parseL_equiv_of_impl (parse_etok_impl a hg d rest (f + 1) (by omega) h1 h2 h3) h4

theorem parseTokens_etok (a : AST) (hg : GoodB a = true) :
    parseTokens (etok a ++ [⟨.EOF, none⟩]) = .ok a := by
  have he : parseL (9 * ((etok a).length + 1) + 9) .equiv (.atom "")
      (etok a ++ [⟨.EOF, none⟩]) = .ok (a, [⟨.EOF, none⟩]) :=
    parse_etok_equiv a hg _ _ _ (by omega) (by decide) (by decide) (by decide) (by decide)
  simp [parseTokens, he]

theorem IdentGood.tail {t : ETok} {ts : List ETok} (h : IdentGood (t :: ts)) : IdentGood ts :=
  fun t2 ht2 => h t2 (List.mem_cons_of_mem _ ht2)

theorem parseL_good : ∀ fuel : Nat, ∀ rank : PRank, ∀ acc : AST, ∀ ts : List ETok,
    ∀ a : AST, ∀ rest : List ETok,
    IdentGood ts → AccGood rank acc →
    parseL fuel rank acc ts = .ok (a, rest) →
    GoodB a = true ∧ IdentGood rest := by
  intro fuel
  induction fuel with
  | zero => intro rank acc ts a rest _ _ h; exact absurd h (by simp [parseL])
  | succ f ih =>
    intro rank acc ts a rest hts hacc h
    cases rank with
    | equiv =>
      simp only [parseL] at h
      split at h
      · exact absurd h (by simp)
      · rename_i l ts1 heq
        obtain ⟨hgl, hts1⟩ := ih .impl acc ts l ts1 hts trivial heq
        exact ih .equivT l ts1 a rest hts1 hgl h
    | equivT =>
      have hacc2 : GoodB acc = true := hacc
      cases ts with
      | nil =>
        simp only [parseL] at h
        obtain ⟨rfl, rfl⟩ := Prod.mk.injEq .. ▸ (Except.ok.inj h)
        exact ⟨hacc2, fun t2 ht2 => absurd ht2 (List.not_mem_nil _)⟩
      | cons t r2 =>
        simp only [parseL] at h
        split at h
        · split at h
          · exact absurd h (by simp)
          · rename_i hiff r ts1 heq
            obtain ⟨hgr, hts1⟩ := ih .impl acc r2 r ts1 hts.tail trivial heq
            refine ih .equivT _ ts1 a rest hts1 ?_ h
            show GoodB (.binary .iff acc r) = true
            simp [GoodB, hacc2, hgr]
        · obtain ⟨rfl, rfl⟩ := Prod.mk.injEq .. ▸ (Except.ok.inj h)
          exact ⟨hacc2, hts⟩
    | impl =>
      simp only [parseL] at h
      split at h
      · exact absurd h (by simp)
      · rename_i l ts1 heq
        obtain ⟨hgl, hts1⟩ := ih .disj acc ts l ts1 hts trivial heq
        split at h
        · obtain ⟨rfl, rfl⟩ := Prod.mk.injEq .. ▸ (Except.ok.inj h)
          exact ⟨hgl, fun t2 ht2 => absurd ht2 (List.not_mem_nil _)⟩
        · rename_i t rest2
          split at h
          · split at h
            · exact absurd h (by simp)
            · rename_i himp r ts2 heq2
              obtain ⟨hgr, hts2⟩ := ih .impl acc rest2 r ts2 hts1.tail trivial heq2
              obtain ⟨rfl, rfl⟩ := Prod.mk.injEq .. ▸ (Except.ok.inj h)
              exact ⟨by simp [GoodB, hgl, hgr], hts2⟩
          · obtain ⟨rfl, rfl⟩ := Prod.mk.injEq .. ▸ (Except.ok.inj h)
            exact ⟨hgl, hts1⟩
    | disj =>
      simp only [parseL] at h
      split at h
      · exact absurd h (by simp)
      · rename_i l ts1 heq
        obtain ⟨hgl, hts1⟩ := ih .conj acc ts l ts1 hts trivial heq
        exact ih .disjT l ts1 a rest hts1 hgl h
    | disjT =>
      have hacc2 : GoodB acc = true := hacc
      cases ts with
      | nil =>
        simp only [parseL] at h
        obtain ⟨rfl, rfl⟩ := Prod.mk.injEq .. ▸ (Except.ok.inj h)
        exact ⟨hacc2, fun t2 ht2 => absurd ht2 (List.not_mem_nil _)⟩
      | cons t r2 =>
        simp only [parseL] at h
        split at h
        · split at h
          · exact absurd h (by simp)
          · rename_i hor r ts1 heq
            obtain ⟨hgr, hts1⟩ := ih .conj acc r2 r ts1 hts.tail trivial heq
            refine ih .disjT _ ts1 a rest hts1 ?_ h
            show GoodB (.binary .or acc r) = true
            simp [GoodB, hacc2, hgr]
        · obtain ⟨rfl, rfl⟩ := Prod.mk.injEq .. ▸ (Except.ok.inj h)
          exact ⟨hacc2, hts⟩
    | conj =>
      simp only [parseL] at h
      split at h
      · exact absurd h (by simp)
      · rename_i l ts1 heq
        obtain ⟨hgl, hts1⟩ := ih .neg acc ts l ts1 hts trivial heq
        exact ih .conjT l ts1 a rest hts1 hgl h
    | conjT =>
      have hacc2 : GoodB acc = true := hacc
      cases ts with
      | nil =>
        simp only [parseL] at h
        obtain ⟨rfl, rfl⟩ := Prod.mk.injEq .. ▸ (Except.ok.inj h)
        exact ⟨hacc2, fun t2 ht2 => absurd ht2 (List.not_mem_nil _)⟩
      | cons t r2 =>
        simp only [parseL] at h
        split at h
        · split at h
          · exact absurd h (by simp)
          · rename_i hand r ts1 heq
            obtain ⟨hgr, hts1⟩ := ih .neg acc r2 r ts1 hts.tail trivial heq
            refine ih .conjT _ ts1 a rest hts1 ?_ h
            show GoodB (.binary .and acc r) = true
            simp [GoodB, hacc2, hgr]
        · obtain ⟨rfl, rfl⟩ := Prod.mk.injEq .. ▸ (Except.ok.inj h)
          exact ⟨hacc2, hts⟩
    | neg =>
      cases ts with
      | nil =>
        simp only [parseL] at h
        exact ih .primary acc [] a rest hts trivial h
      | cons t r2 =>
        simp only [parseL] at h
        split at h
        · split at h
          · exact absurd h (by simp)
          · rename_i hnot x ts1 heq
            obtain ⟨hgx, hts1⟩ := ih .neg acc r2 x ts1 hts.tail trivial heq
            obtain ⟨rfl, rfl⟩ := Prod.mk.injEq .. ▸ (Except.ok.inj h)
            exact ⟨by simp [negate, GoodB, hgx], hts1⟩
        · exact ih .primary acc (t :: r2) a rest hts trivial h
    | primary =>
      cases ts with
      | nil =>
        simp only [parseL] at h
        exact absurd h (by simp)
      | cons t r2 =>
        simp only [parseL] at h
        split at h
        · rename_i hlp
          split at h
          · exact absurd h (by simp)
          · rename_i inner ts1 heq
            obtain ⟨hgi, hts1⟩ := ih .equiv acc r2 inner ts1 hts.tail trivial heq
            split at h
            · exact absurd h (by simp)
            · rename_i t2 rest2
              split at h
              · obtain ⟨rfl, rfl⟩ := Prod.mk.injEq .. ▸ (Except.ok.inj h)
                exact ⟨hgi, hts1.tail⟩
              · exact absurd h (by simp)
        · split at h
          · rename_i hnlp hid
            obtain ⟨rfl, rfl⟩ := Prod.mk.injEq .. ▸ (Except.ok.inj h)
            exact ⟨hts t (List.mem_cons_self _ _) hid, hts.tail⟩
          · exact absurd h (by simp)

theorem except_map_ok {ε α β : Type} {g : α → β} {x : Except ε α} {y : β}
    (h : x.map g = .ok y) : ∃ z, x = .ok z ∧ y = g z := by
  cases x with
  | error e => simp [Except.map] at h
  | ok z =>
    have h2 : (Except.ok (g z) : Except ε β) = .ok y := by simpa [Except.map] using h
    exact ⟨z, rfl, (Except.ok.inj h2).symm⟩

theorem goodName_of_ident_scan {c : Char} {cs2 : List Char}
    (hid : isIdentStart c = true) (hso : startsOperatorB (c :: cs2) = false) :
    goodNameB (String.mk ((c :: cs2).takeWhile isIdentChar)) = true := by
  have htw : (c :: cs2).takeWhile isIdentChar = c :: cs2.takeWhile isIdentChar := by
    rw [List.takeWhile_cons, identStart_isIdentChar hid]
    simp
  rw [htw]
  have hpre : (c :: cs2.takeWhile isIdentChar) <+: (c :: cs2) := by
    rw [← htw]
    exact List.takeWhile_prefix _
  have hnop : ∀ kv ∈ operatorMappings,
      isPrefixOfChars kv.1.data (c :: cs2.takeWhile isIdentChar) = false := by
    intro kv hkv
    cases hp : isPrefixOfChars kv.1.data (c :: cs2.takeWhile isIdentChar) with
    | false => rfl
    | true =>
      exfalso
      rw [isPrefixOfChars_eq, List.isPrefixOf_iff_prefix] at hp
      have hp2 : kv.1.data <+: (c :: cs2) := hp.trans hpre
      have h3 : startsOperatorB (c :: cs2) = true := by
        refine List.any_eq_true.2 ⟨kv, hkv, ?_⟩
        rw [isPrefixOfChars_eq, List.isPrefixOf_iff_prefix]
        exact hp2
      rw [h3] at hso
      exact absurd hso (by simp)
  simp only [goodNameB, Bool.and_eq_true]
  constructor
  · show (isIdentStart c && (cs2.takeWhile isIdentChar).all isIdentChar) = true
    rw [hid]
    simp [List.all_takeWhile]
  · refine List.all_eq_true.2 ?_
    intro kv hkv
    simp [hnop kv hkv]

theorem lexRun_good : ∀ fuel : Nat, ∀ cs : List Char, ∀ pos : Nat, ∀ toks : List Tok,
    lexRun fuel cs pos = .ok toks →
    ∀ t ∈ toks, t.type = .IDENTIFIER → goodNameB (t.value.getD "") = true := by
  intro fuel
  induction fuel with
  | zero => intro cs pos toks h; exact absurd h (by simp [lexRun])
  | succ f ih =>
    intro cs pos toks h
    cases cs with
    | nil =>
      have h2 : ([⟨.EOF, none, pos⟩] : List Tok) = toks := Except.ok.inj h
      intro t ht htype
      rw [← h2] at ht
      simp only [List.mem_singleton] at ht
      rw [ht] at htype
      exact absurd htype (by simp)
    | cons c cs2 =>
      simp only [lexRun] at h
      split at h
      · exact ih cs2 (pos + 1) toks h
      · split at h
        · obtain ⟨toks2, h2, rfl⟩ := except_map_ok h
          intro t ht htype
          rcases List.mem_cons.1 ht with rfl | ht2
          · exact absurd htype (by simp)
          · exact ih cs2 (pos + 1) toks2 h2 t ht2 htype
        · split at h
          · obtain ⟨toks2, h2, rfl⟩ := except_map_ok h
            intro t ht htype
            rcases List.mem_cons.1 ht with rfl | ht2
            · exact absurd htype (by simp)
            · exact ih cs2 (pos + 1) toks2 h2 t ht2 htype
          · split at h
            · split at h
              · rename_i canonlen heq
                obtain ⟨toks2, h2, rfl⟩ := except_map_ok h
                intro t ht htype
                rcases List.mem_cons.1 ht with rfl | ht2
                · exact absurd htype (by simp)
                · exact ih _ _ toks2 h2 t ht2 htype
              · exact absurd h (by simp)
            · split at h
              · rename_i hso hid
                obtain ⟨toks2, h2, rfl⟩ := except_map_ok h
                intro t ht htype
                rcases List.mem_cons.1 ht with rfl | ht2
                · show goodNameB (Option.getD (some (String.mk ((c :: cs2).takeWhile isIdentChar))) "") = true
                  exact goodName_of_ident_scan hid (by simpa using hso)
                · exact ih _ _ toks2 h2 t ht2 htype
              · exact absurd h (by simp)

theorem noDN_normalizeAST : ∀ a : AST, noDN (normalizeAST a) = true := by
  intro a
  induction a using normalizeAST.induct with
  | case1 n => rfl
  | case2 y ih => exact ih
  | case3 op x hne ih =>
    cases op with
    | not =>
      cases x with
      | atom n => rfl
      | unary op2 y =>
        cases op2 with
        | not => exact (hne y rfl rfl).elim
        | and => exact ih
        | or => exact ih
        | implies => exact ih
        | iff => exact ih
      | binary op2 l r => exact ih
    | and => exact ih
    | or => exact ih
    | implies => exact ih
    | iff => exact ih
  | case4 op l r ihl ihr =>
    show (noDN (normalizeAST l) && noDN (normalizeAST r)) = true
    rw [ihl, ihr]
    rfl

theorem GoodB_normalizeAST : ∀ a : AST, GoodB a = true → GoodB (normalizeAST a) = true := by
  intro a
  induction a using normalizeAST.induct with
  | case1 n => exact fun h => h
  | case2 y ih =>
    intro hg
    have hg2 : (decide ((Operator.not : Operator) = .not) &&
        (decide ((Operator.not : Operator) = .not) && GoodB y)) = true := hg
    simp only [Bool.and_eq_true, decide_eq_true_eq] at hg2
    exact ih hg2.2.2
  | case3 op x hne ih =>
    intro hg
    have hg2 : (decide (op = Operator.not) && GoodB x) = true := hg
    simp only [Bool.and_eq_true, decide_eq_true_eq] at hg2
    obtain ⟨rfl, hgx⟩ := hg2
    cases x with
    | atom n => exact hg
    | unary op2 y =>
      cases op2 with
      | not => exact (hne y rfl rfl).elim
      | and => exact absurd hgx (by simp [GoodB])
      | or => exact absurd hgx (by simp [GoodB])
      | implies => exact absurd hgx (by simp [GoodB])
      | iff => exact absurd hgx (by simp [GoodB])
    | binary op2 l2 r2 =>
      show (decide ((Operator.not : Operator) = .not) && GoodB (normalizeAST (.binary op2 l2 r2))) = true
      simp [ih hgx]
  | case4 op l r ihl ihr =>
    intro hg
    have hg2 : (decide (¬op = Operator.not) && GoodB l && GoodB r) = true := hg
    simp only [Bool.and_eq_true, decide_eq_true_eq] at hg2
    obtain ⟨⟨hop, hgl⟩, hgr⟩ := hg2
    show (decide (¬op = Operator.not) && GoodB (normalizeAST l) && GoodB (normalizeAST r)) = true
    simp [hop, ihl hgl, ihr hgr]

theorem normalizeAST_eq_self : ∀ a : AST, noDN a = true → normalizeAST a = a := by
  intro a
  induction a using normalizeAST.induct with
  | case1 n => exact fun _ => rfl
  | case2 y ih => intro h; exact absurd h (by simp [noDN])
  | case3 op x hne ih =>
    intro h
    cases op with
    | not =>
      cases x with
      | atom n => rfl
      | unary op2 y =>
        cases op2 with
        | not => exact (hne y rfl rfl).elim
        | and =>
          show AST.unary .not (normalizeAST (.unary .and y)) = _
          rw [ih h]
        | or =>
          show AST.unary .not (normalizeAST (.unary .or y)) = _
          rw [ih h]
        | implies =>
          show AST.unary .not (normalizeAST (.unary .implies y)) = _
          rw [ih h]
        | iff =>
          show AST.unary .not (normalizeAST (.unary .iff y)) = _
          rw [ih h]
      | binary op2 l r =>
        show AST.unary .not (normalizeAST (.binary op2 l r)) = _
        rw [ih h]
    | and =>
      show AST.unary .and (normalizeAST x) = _
      rw [ih h]
    | or =>
      show AST.unary .or (normalizeAST x) = _
      rw [ih h]
    | implies =>
      show AST.unary .implies (normalizeAST x) = _
      rw [ih h]
    | iff =>
      show AST.unary .iff (normalizeAST x) = _
      rw [ih h]
  | case4 op l r ihl ihr =>
    intro h
    have h2 : (noDN l && noDN r) = true := h
    simp only [Bool.and_eq_true] at h2
    show AST.binary op (normalizeAST l) (normalizeAST r) = _
    rw [ihl h2.1, ihr h2.2]

theorem astEquals_refl : ∀ a : AST, astEquals a a = true := by
  intro a
  induction a with
  | atom n => simp [astEquals]
  | unary op x ih => simp [astEquals, ih]
  | binary op l r ihl ihr => simp [astEquals, ihl, ihr]

theorem atomName_chars {n : String} (h : atomNamePattern n = true) :
    ∀ c ∈ n.data, isIdentChar c = true := by
  simp only [atomNamePattern] at h
  intro c hc
  cases hd : n.data with
  | nil => rw [hd] at hc; exact absurd hc (List.not_mem_nil _)
  | cons c0 cs =>
    rw [hd] at h hc
    simp only [Bool.and_eq_true] at h
    rcases List.mem_cons.1 hc with rfl | hc2
    · exact identStart_isIdentChar h.1
    · exact List.all_eq_true.1 h.2 c hc2


theorem head_all_of_mem {p : Char → Bool} {l : List Char} (h : ∀ c ∈ l, p c = true) :
    l.head?.all p = true := by
  cases l with
  | nil => rfl
  | cons c cs => simpa using h c (List.mem_cons_self _ _)

theorem render_ends : ∀ a : AST, GoodB a = true →
    renderChars a ≠ [] ∧
    (renderChars a).head?.all (fun c => !c.isWhitespace) = true ∧
    (renderChars a).reverse.head?.all (fun c => !c.isWhitespace) = true := by
  intro a
  induction a with
  | atom n =>
    intro hg
    have hg2 : (atomNamePattern n &&
        operatorMappings.all (fun kv => !isPrefixOfChars kv.1.data n.data)) = true := hg
    simp only [Bool.and_eq_true] at hg2
    have hchars := atomName_chars hg2.1
    have hnp : ∀ c ∈ n.data, (!c.isWhitespace) = true := by
      intro c hc
      simp [identChar_not_ws (hchars c hc)]
    have hne : n.data ≠ [] := by
      intro hnil
      have := hg2.1
      simp only [atomNamePattern, hnil] at this
      exact absurd this (by simp)
    refine ⟨hne, head_all_of_mem hnp, head_all_of_mem ?_⟩
    intro c hc
    exact hnp c (List.mem_reverse.1 hc)
  | unary op x ih =>
    intro hg
    have hg2 : (decide (op = Operator.not) && GoodB x) = true := hg
    simp only [Bool.and_eq_true, decide_eq_true_eq] at hg2
    obtain ⟨hx1, hx2, hx3⟩ := ih hg2.2
    rw [renderChars_unary]
    refine ⟨by simp, by simp, ?_⟩
    rw [List.reverse_cons]
    cases hr : (renderChars x).reverse with
    | nil => exact absurd (by simpa using congrArg List.reverse hr) hx1
    | cons c cs =>
      rw [hr] at hx3
      simpa using hx3
  | binary op l r ihl ihr =>
    intro hg
    have hsplit : renderChars (.binary op l r) =
        ('(' :: (renderChars l ++ ' ' :: ((opSymbol op).data ++ ' ' :: renderChars r))) ++ [')'] := by
      rw [renderChars_binary]
      simp [List.append_assoc]
    refine ⟨?_, ?_, ?_⟩
    · rw [renderChars_binary]; simp
    · rw [renderChars_binary]; simp
    · rw [hsplit, List.reverse_append]
      simp

theorem trimChars_eq_self_of_ends {l : List Char}
    (h1 : l.head?.all (fun c => !c.isWhitespace) = true)
    (h2 : l.reverse.head?.all (fun c => !c.isWhitespace) = true) : trimChars l = l := by
  unfold trimChars
  have e1 : l.dropWhile Char.isWhitespace = l := by
    cases l with
    | nil => rfl
    | cons c cs =>
      have hc : c.isWhitespace = false := by simpa using h1
      simp [List.dropWhile_cons, hc]
  rw [e1]
  have e2 : l.reverse.dropWhile Char.isWhitespace = l.reverse := by
    cases hr : l.reverse with
    | nil => rfl
    | cons c cs =>
      rw [hr] at h2
      have hc : c.isWhitespace = false := by simpa using h2
      simp [List.dropWhile_cons, hc]
  rw [e2, List.reverse_reverse]

/-- Tokenizing the canonical rendering of a good AST yields its expected
token stream followed by `EOF`. -/
theorem tokenize_render (a : AST) (hg : GoodB a = true) :
    ∃ toks, tokenize (astToString a) = .ok toks ∧
      toks.map eraseTok = etok a ++ [⟨.EOF, none⟩] := by
  obtain ⟨hne, hh, hl⟩ := render_ends a hg
  have htrim : trimChars (renderChars a) = renderChars a := trimChars_eq_self_of_ends hh hl
  obtain ⟨toks, fuel2, pos2, hf2, hrun, herase⟩ :=
    lex_render a hg [] 0 ((renderChars a ++ []).length + 1) (Or.inl rfl) (Nat.lt_succ_self _)
  rw [List.append_nil] at hrun
  obtain ⟨f2, rfl⟩ : ∃ f2, fuel2 = f2 + 1 := ⟨fuel2 - 1, by omega⟩
  refine ⟨toks ++ [⟨.EOF, none, pos2⟩], ?_, ?_⟩
  · show lexRun ((trimChars (renderChars a)).length + 1) (trimChars (renderChars a)) 0 = _
    rw [htrim, hrun]
    rfl
  · rw [List.map_append, herase]
    rfl

/-- Every AST returned by `parseFormulaFromString` is good: its unary nodes
are negations, its binary operators are binary tags, and its atom names are
identifier spellings that no operator alias begins. -/
theorem parseFormulaFromString_good {s : String} {a0 : AST}
    (h : parseFormulaFromString s = .ok a0) : GoodB a0 = true := by
  simp only [parseFormulaFromString] at h
  split at h
  · exact absurd h (by simp)
  · rename_i ts0 ht
    have hgood : IdentGood (ts0.map eraseTok) := by
      intro t htm htype
      obtain ⟨t0, ht0, rfl⟩ := List.mem_map.1 htm
      exact lexRun_good _ _ _ _ ht t0 ht0 htype
    simp only [parseTokens] at h
    split at h
    · exact absurd h (by simp)
    · rename_i a1 rest heq
      have hg1 := (parseL_good _ .equiv _ _ _ _ hgood trivial heq).1
      split at h
      · obtain rfl := Except.ok.inj h
        exact hg1
      · split at h
        · obtain rfl := Except.ok.inj h
          exact hg1
        · exact absurd h (by simp)

/-- C3: for any formula string `s` accepted by the parser, rendering the
parsed (double-negation-normalized) AST to its canonical string and parsing
that rendering again succeeds and yields an AST structurally equal
(`astEquals`) to the first parse: `parse(render(parse(s)))` is AST-equal to
`parse(s)`. -/
theorem claim3_roundtrip (s : String) (a : AST) (h : parseFormula s = .ok a) :
    ∃ a2, parseFormula (astToString a) = .ok a2 ∧ astEquals a2 a = true := by
  have h1 : (parseFormulaFromString s).map normalizeAST = .ok a := h
  obtain ⟨a0, hp0, rfl⟩ := except_map_ok h1
  have hg0 : GoodB a0 = true := parseFormulaFromString_good hp0
  have hga : GoodB (normalizeAST a0) = true := GoodB_normalizeAST a0 hg0
  have hnn : noDN (normalizeAST a0) = true := noDN_normalizeAST a0
  obtain ⟨toks, htokA, heraseA⟩ := tokenize_render (normalizeAST a0) hga
  have hpfs : parseFormulaFromString (astToString (normalizeAST a0)) = .ok (normalizeAST a0) := by
    simp only [parseFormulaFromString, htokA]
    rw [heraseA]
    exact parseTokens_etok _ hga
  refine ⟨normalizeAST a0, ?_, astEquals_refl _⟩
  show (parseFormulaFromString (astToString (normalizeAST a0))).map normalizeAST = _
  rw [hpfs]
  show Except.ok (normalizeAST (normalizeAST a0)) = _
  rw [normalizeAST_eq_self _ hnn]

theorem claim3_roundtrip_witness :
    parseFormula "P AND Q" = .ok (.binary .and (.atom "P") (.atom "Q")) ∧
    ∃ a2, parseFormula (astToString (.binary .and (.atom "P") (.atom "Q"))) = .ok a2 ∧
      astEquals a2 (.binary .and (.atom "P") (.atom "Q")) = true :=
  ⟨by decide, claim3_roundtrip "P AND Q" (.binary .and (.atom "P") (.atom "Q")) (by decide)⟩

end Gentzen
